import Mathlib

/-!
# A verification development for `tds::thread_pool` (src/thread_pool.hpp)

The pool is modelled as a state machine.  The three data members `threads_`,
`work_queue_` and `closed_` are fields of `System`; `mutex_` is modelled by
atomicity: every block of the source that runs between taking and releasing the
mutex is one transition.  `System` also carries what the pool shares with the
rest of the process: the shared states of the futures handed out by `submit`,
and whether `std::terminate` has been called.  The field `history` is a ghost
log of the transitions taken; no operation ever reads it.
-/

set_option linter.dupNamespace false

namespace tds


/-- Outcome of calling a callable on its bound arguments: it returns a value,
raises a failure, or never returns. -/
inductive Behaviour (V E : Type) where
  | returns (v : V)
  | raises (e : E)
  | diverges

/-- Shared state behind a `std::future` / `std::packaged_task` pair.
`broken_promise` is the `std::future_error` stored when the task object is
destroyed before it has made the state ready. -/
inductive shared_state (V E : Type) where
  | not_ready
  | value (v : V)
  | exception (e : E)
  | broken_promise

/-- How one call of `function_wrapper::operator()` ends, as seen by the caller:
it returns, an exception leaves it, or it never returns. -/
inductive Completion where
  | normal
  | thrown
  | never

/-- Model of `std::packaged_task<R()>` (line 83): the index of its shared state
and the bound callable `std::bind(f, args...)`. -/
structure packaged_task (V E : Type) where
  state : Nat
  fn : Unit → Behaviour V E

/-- The callable `f_` stored in `impl_type<F>` (lines 22-31).  `submit` only ever
instantiates `F = std::packaged_task<R()>`; the class template admits any other
zero-argument callable, of which only the way its call ends matters here. -/
inductive impl_type (V E : Type) where
  | packaged (task : packaged_task V E)
  | other (f_ : Unit → Completion)

/-- Move-only type-erased task wrapper `function_wrapper` (lines 15-54). -/
structure function_wrapper (V E : Type) where
  impl : impl_type V E

/-- One element of `threads_` together with the progress of the call of
`worker_thread` it runs: at the top of the loop, inside `task()` with the
wrapper it popped, returned (still joinable), or joined.  Between popping the
wrapper and calling it the worker only releases the lock, so holding the
wrapper and executing it are one state. -/
inductive thread (V E : Type) where
  | idle_poll
  | executing (task : function_wrapper V E)
  | terminated
  | joined

/-- Entries of the ghost log. -/
inductive Event (V E : Type) where
  | submitted (task : function_wrapper V E)
  | dequeued (worker : Nat) (task : function_wrapper V E)
  | invoked (worker : Nat) (task : function_wrapper V E)
  | closed
  | joined (worker : Nat)

/-- Pool members (`threads_`, `work_queue_`, `closed_`; lines 129-132), the
shared states of the futures returned so far, the process-wide "std::terminate
was called" bit, and the ghost log. -/
structure System (V E : Type) where
  threads_ : List (thread V E)
  work_queue_ : List (function_wrapper V E)
  closed_ : Bool
  shared : List (shared_state V E)
  terminate_called : Bool
  history : List (Event V E)

variable {V E : Type}

/-- What a ready shared state holds after the callable ended as `b`. -/
def resolve : Behaviour V E → shared_state V E
  | .returns v => .value v
  | .raises e => .exception e
  | .diverges => .not_ready

/-- Model of `std::packaged_task::operator()`: runs the stored callable and
stores its value or its exception in the shared state; throws
`std::future_error` when there is no shared state or it is already satisfied. -/
def packaged_task.call (t : packaged_task V E) (sh : List (shared_state V E)) :
    Completion × List (shared_state V E) :=
  match sh[t.state]? with
  | some .not_ready =>
    match t.fn () with
    | .returns v => (.normal, sh.set t.state (.value v))
    | .raises e => (.normal, sh.set t.state (.exception e))
    | .diverges => (.never, sh)
  | _ => (.thrown, sh)

/-- Model of `std::packaged_task::~packaged_task()`: abandons the shared state,
storing `broken_promise` when it is not ready yet. -/
def packaged_task.destroy (t : packaged_task V E) (sh : List (shared_state V E)) :
    List (shared_state V E) :=
  match sh[t.state]? with
  | some .not_ready => sh.set t.state .broken_promise
  | _ => sh

/-- Call operator `function_wrapper::operator()` (lines 40-42): `impl->call()`,
that is `f_()`. -/
def function_wrapper.call (t : function_wrapper V E) (sh : List (shared_state V E)) :
    Completion × List (shared_state V E) :=
  match t.impl with
  | .packaged p => p.call sh
  | .other f_ =>
    match f_ () with
    | .normal => (.normal, sh)
    | .thrown => (.thrown, sh)
    | .never => (.never, sh)

/-- Destruction of a wrapper that still owns its callable. -/
def function_wrapper.destroy (t : function_wrapper V E) (sh : List (shared_state V E)) :
    List (shared_state V E) :=
  match t.impl with
  | .packaged p => p.destroy sh
  | .other _ => sh

/-- Index of the shared state a wrapper is linked to, if it wraps a packaged task. -/
def function_wrapper.channel (t : function_wrapper V E) : Option Nat :=
  match t.impl with
  | .packaged p => some p.state
  | .other _ => none

/-- The call of the wrapper returns or throws (it does not run forever). -/
def function_wrapper.terminates (t : function_wrapper V E) : Prop :=
  match t.impl with
  | .packaged p => p.fn () ≠ .diverges
  | .other f_ => f_ () ≠ .never

/-- Result of the constructor: the constructed pool, or the exception rethrown
by `throw;` together with the state of the members at that point. -/
inductive Constructed (V E : Type) where
  | pool (s : System V E)
  | failure (s : System V E)

/-- Method `thread_pool::close` (lines 119-122): sets the flag, under the lock. -/
def thread_pool.close (s : System V E) : System V E :=
  { s with closed_ := true, history := s.history ++ [.closed] }

/-- The loop of the constructor (lines 60-64) from iteration `i` with
`remaining` iterations to go; `start_ok i` tells whether creating the
`std::thread` of iteration `i` succeeds.  A created thread begins at the top of
the loop of `worker_thread`.  On failure the handler (lines 65-68) runs
`close()` and rethrows. -/
def thread_pool.start_threads (start_ok : Nat → Bool) :
    Nat → Nat → System V E → Constructed V E
  | 0, _, s => .pool s
  | remaining + 1, i, s =>
    if start_ok i then
      thread_pool.start_threads start_ok remaining (i + 1)
        { s with threads_ := s.threads_ ++ [.idle_poll] }
    else
      .failure (thread_pool.close s)

/-- Constructor `thread_pool::thread_pool(unsigned int thread_count)` (lines 58-69).
`threads_`, `mutex_` and `work_queue_` are default-constructed.  `closed_` has
no initializer and the constructor never assigns it, so it starts with whatever
value `garbage` its storage happens to hold.  The loop counter stays below
`thread_count`, so the width of `unsigned int` plays no role. -/
def thread_pool.thread_pool (garbage : Bool) (thread_count : Nat) (start_ok : Nat → Bool) :
    Constructed V E :=
  thread_pool.start_threads start_ok thread_count 0
    { threads_ := [], work_queue_ := [], closed_ := garbage, shared := [],
      terminate_called := false, history := [] }

/-- Method `thread_pool::submit` (lines 81-89): builds the packaged task around
the bound callable, takes its future, and appends the task, converted to a
`function_wrapper`, at the back of the queue.  Returns the future (the index of
the new shared state) and the new state.  The local `task` has been moved from
when it is destroyed, so its destruction touches no shared state. -/
def thread_pool.submit {α : Type} (f : α → Behaviour V E) (args : α) (s : System V E) :
    Nat × System V E :=
  let task : packaged_task V E := ⟨s.shared.length, fun _ => f args⟩
  (task.state,
    { s with
      shared := s.shared ++ [.not_ready]
      work_queue_ := s.work_queue_ ++ [⟨.packaged task⟩]
      history := s.history ++ [.submitted ⟨.packaged task⟩] })

/-- One pass through the critical section of `worker_thread` (lines 95-100 and
104-105) by worker `w`, which is at the top of its loop.  The front wrapper is
moved into the worker, so what `pop_front` destroys owns no callable. -/
def thread_pool.idle_poll (w : Nat) (s : System V E) : System V E :=
  if s.closed_ then
    { s with threads_ := s.threads_.set w .terminated }
  else
    match s.work_queue_ with
    | task :: rest =>
      { s with
        work_queue_ := rest
        threads_ := s.threads_.set w (.executing task)
        history := s.history ++ [.dequeued w task] }
    | [] => s

/-- The call `task()` of line 101 by worker `w`, outside the lock, and what
follows it: when the call returns, the local wrapper is destroyed at the end of
the block and the worker is back at the top of the loop; when an exception
leaves the call, the handler of lines 108-110 runs `std::terminate()`.  A call
that never returns leaves the worker where it is. -/
def thread_pool.execute (w : Nat) (task : function_wrapper V E) (s : System V E) :
    System V E :=
  match task.call s.shared with
  | (.normal, sh) =>
    { s with
      shared := task.destroy sh
      threads_ := s.threads_.set w .idle_poll
      history := s.history ++ [.invoked w task] }
  | (.thrown, sh) =>
    { s with
      shared := sh
      terminate_called := true
      history := s.history ++ [.invoked w task] }
  | (.never, _) => s

/-- Next step of `worker_thread` (lines 92-111) for the thread at index `w`. -/
def thread_pool.worker_thread (w : Nat) (s : System V E) : System V E :=
  match s.threads_[w]? with
  | some .idle_poll => thread_pool.idle_poll w s
  | some (.executing task) => thread_pool.execute w task s
  | _ => s

/-- What the environment and the workers can do to a live pool. -/
inductive Action (V E : Type) where
  | submit (f : Unit → Behaviour V E)
  | worker (w : Nat)
  | close

/-- One transition.  Nothing runs once `std::terminate` has been called. -/
def step (a : Action V E) (s : System V E) : System V E :=
  if s.terminate_called then s
  else
    match a with
    | .submit f => (thread_pool.submit f () s).2
    | .worker w => thread_pool.worker_thread w s
    | .close => thread_pool.close s

/-- Runs a sequence of transitions. -/
def run (acts : List (Action V E)) (s : System V E) : System V E :=
  acts.foldl (fun st a => step a st) s

/-- The call `t.join()` for the thread at index `i` (line 115): the caller
waits, while the workers named by the schedule take their steps, until thread
`i` has returned; `none` when the schedule runs out first.  The loop of `join`
meets every handle once, so it never joins a handle that is not joinable. -/
def thread_pool.join_thread (i : Nat) :
    List Nat → System V E → Option (List Nat × System V E)
  | [], s =>
    match s.threads_[i]? with
    | some .terminated =>
      some ([], { s with threads_ := s.threads_.set i .joined,
                         history := s.history ++ [.joined i] })
    | _ => none
  | w :: rest, s =>
    match s.threads_[i]? with
    | some .terminated =>
      some (w :: rest, { s with threads_ := s.threads_.set i .joined,
                                history := s.history ++ [.joined i] })
    | _ => thread_pool.join_thread i rest (step (.worker w) s)

/-- The loop of `thread_pool::join` (lines 113-117) over the given indices. -/
def thread_pool.join_loop :
    List Nat → List Nat → System V E → Option (List Nat × System V E)
  | [], sched, s => some (sched, s)
  | i :: more, sched, s =>
    match thread_pool.join_thread i sched s with
    | some (sched1, s1) => thread_pool.join_loop more sched1 s1
    | none => none

/-- Method `thread_pool::join` (lines 113-117): joins the threads of `threads_` in order. -/
def thread_pool.join (sched : List Nat) (s : System V E) : Option (List Nat × System V E) :=
  thread_pool.join_loop (List.range s.threads_.length) sched s

/-- A `std::thread` handle can be destroyed without `std::terminate` only when
it is not joinable. -/
def thread.joinable : thread V E → Bool
  | .joined => false
  | _ => true

/-- Destruction of the data members, which follows the body of the destructor
and also happens when the constructor exits by an exception: the wrappers still
in `work_queue_` are destroyed, then the `std::thread` handles in `threads_`,
where destroying a joinable handle calls `std::terminate`. -/
def thread_pool.destroy_members (s : System V E) : System V E :=
  { s with
    shared := s.work_queue_.foldl (fun sh t => t.destroy sh) s.shared
    work_queue_ := []
    terminate_called := s.terminate_called || s.threads_.any thread.joinable
    threads_ := [] }

/-- Destructor `thread_pool::~thread_pool` (lines 76-79), `close(); join();`,
followed by the destruction of the members; `none` when `join` does not return
within the schedule. -/
def thread_pool.destructor (sched : List Nat) (s : System V E) : Option (System V E) :=
  match thread_pool.join sched (thread_pool.close s) with
  | some (_, s1) => some (thread_pool.destroy_members s1)
  | none => none

/-- Runs the first `n` steps of an infinite schedule of worker indices. -/
def runSched (σ : Nat → Nat) : Nat → System V E → System V E
  | 0, s => s
  | n + 1, s => step (.worker (σ n)) (runSched σ n s)

/-- Wrappers submitted so far, in submission order. -/
def submittedOf : List (Event V E) → List (function_wrapper V E)
  | [] => []
  | .submitted t :: h => t :: submittedOf h
  | _ :: h => submittedOf h

/-- Dequeues so far, in dequeue order, each with the worker that did it. -/
def dequeuedBy : List (Event V E) → List (Nat × function_wrapper V E)
  | [] => []
  | .dequeued w t :: h => (w, t) :: dequeuedBy h
  | _ :: h => dequeuedBy h

/-- Wrappers dequeued so far, in dequeue order. -/
def dequeuedOf (h : List (Event V E)) : List (function_wrapper V E) :=
  (dequeuedBy h).map Prod.snd

/-- Invocations so far, each with the worker that made the call. -/
def invokedBy : List (Event V E) → List (Nat × function_wrapper V E)
  | [] => []
  | .invoked w t :: h => (w, t) :: invokedBy h
  | _ :: h => invokedBy h

/-- Wrappers invoked so far. -/
def invokedOf (h : List (Event V E)) : List (function_wrapper V E) :=
  (invokedBy h).map Prod.snd

/-- A schedule in which each of the first `n` workers is scheduled again and again. -/
def Fair (n : Nat) (σ : Nat → Nat) : Prop :=
  ∀ w, w < n → ∀ k, ∃ m, k ≤ m ∧ σ m = w

/-- Facts that hold in every state reachable from a constructed pool. -/
structure Inv (s : System V E) : Prop where
  alive : s.terminate_called = false
  chans : (submittedOf s.history).map function_wrapper.channel
    = (List.range s.shared.length).map some
  fifo : dequeuedOf s.history ++ s.work_queue_ = submittedOf s.history
  held : ∀ (w : Nat) (t : function_wrapper V E), s.threads_[w]? = some (.executing t) →
    (w, t) ∈ dequeuedBy s.history ∧
      ∃ p, t = ⟨.packaged p⟩ ∧ s.shared[p.state]? = some .not_ready
  queued : ∀ (t : function_wrapper V E), t ∈ s.work_queue_ →
    ∃ p, t = ⟨.packaged p⟩ ∧ s.shared[p.state]? = some .not_ready
  done : ∀ (w : Nat) (t : function_wrapper V E), (w, t) ∈ invokedBy s.history →
    (w, t) ∈ dequeuedBy s.history ∧
      ∃ p, t = ⟨.packaged p⟩ ∧ s.shared[p.state]? = some (resolve (p.fn ())) ∧
        p.fn () ≠ .diverges
  owner : ∀ (w : Nat) (t : function_wrapper V E), (w, t) ∈ dequeuedBy s.history →
    s.threads_[w]? = some (.executing t) ∨ (w, t) ∈ invokedBy s.history
  once : (invokedOf s.history).Nodup
  live : ∀ (w : Nat), s.threads_[w]? = some .terminated → s.closed_ = true
  workers : ∀ (w : Nat) (t : function_wrapper V E), (w, t) ∈ dequeuedBy s.history →
    w < s.threads_.length

/-- State of a pool whose constructor has started `n` threads. -/
def started (garbage : Bool) (n : Nat) : System V E :=
  { threads_ := List.replicate n .idle_poll, work_queue_ := [], closed_ := garbage,
    shared := [], terminate_called := false, history := [] }

/-- During shutdown: the flag is set, and every worker that has not returned
yet has enough turns left in the schedule, one to see the flag and one more
before it if it still holds a wrapper, whose call ends. -/
structure Winding (sched : List Nat) (s : System V E) : Prop where
  inv : Inv s
  closed : s.closed_ = true
  idle : ∀ (w : Nat), s.threads_[w]? = some .idle_poll → 1 ≤ sched.count w
  exec : ∀ (w : Nat) (t : function_wrapper V E), s.threads_[w]? = some (.executing t) →
    t.terminates ∧ 2 ≤ sched.count w

/-- No thread has been joined and the log records no join. -/
def Fresh (s : System V E) : Prop :=
  (∀ (k : Nat), s.threads_[k]? ≠ some .joined) ∧ ∀ (i : Nat), Event.joined i ∉ s.history

/-- Number of dequeues and invocations made so far. -/
def progress (s : System V E) : Nat :=
  (dequeuedBy s.history).length + (invokedBy s.history).length

/-- Nothing is queued and no worker holds a wrapper. -/
def Drained (s : System V E) : Prop :=
  s.work_queue_ = [] ∧
    ∀ (w : Nat) (t : function_wrapper V E), s.threads_[w]? ≠ some (.executing t)

/-- A pool that has not been shut down, none of whose submitted callables runs
forever. -/
structure Running (s : System V E) : Prop where
  inv : Inv s
  opened : s.closed_ = false
  term : ∀ (t : function_wrapper V E), t ∈ submittedOf s.history → t.terminates
  unjoined : ∀ (k : Nat), s.threads_[k]? ≠ some .joined

/-- Function `background` of src/main.cpp (lines 6-12): sleeps, prints the
message, and returns. -/
def background (_message : String) : Behaviour Unit Nat :=
  .returns ()

/-- The five submissions of `main` (src/main.cpp, lines 17-21). -/
def main_submissions : List (Action Unit Nat) :=
  [.submit (fun _ => background "1"), .submit (fun _ => background "2"),
   .submit (fun _ => background "3"), .submit (fun _ => background "4"),
   .submit (fun _ => background "5")]

/-- Three submissions to a pool of two workers, each of which then dequeues. -/
def three_then_two_polls : List (Action Nat Nat) :=
  [.submit (fun _ => .returns 1), .submit (fun _ => .raises 2), .submit (fun _ => .returns 3),
   .worker 0, .worker 1]

/-- One submission, dequeued by worker 0. -/
def one_held : List (Action Nat Nat) :=
  [.submit (fun _ => .returns 7), .worker 0]

/-- Two submissions, the first dequeued by worker 0. -/
def one_held_one_queued : List (Action Nat Nat) :=
  [.submit (fun _ => .returns 7), .submit (fun _ => .returns 8), .worker 0]

/-- A worker inside the call of a wrapper, not made by `submit`, that throws. -/
def holding_thrower : System Nat Nat :=
  { threads_ := [.executing ⟨.other (fun _ => .thrown)⟩], work_queue_ := [],
    closed_ := false, shared := [], terminate_called := false, history := [] }

/-! ## Properties -/

theorem getElem?_append_some {α : Type} {l l1 : List α} {i : Nat} {x : α}
    (h : l[i]? = some x) : (l ++ l1)[i]? = some x := by
  obtain ⟨hi, _⟩ := List.getElem?_eq_some.1 h
  rw [List.getElem?_append_left hi]
  exact h

theorem lt_of_getElem?_some {α : Type} {l : List α} {i : Nat} {x : α}
    (h : l[i]? = some x) : i < l.length :=
  (List.getElem?_eq_some.1 h).1

theorem submittedOf_append (h1 h2 : List (Event V E)) :
    submittedOf (h1 ++ h2) = submittedOf h1 ++ submittedOf h2 := by
  induction h1 with
  | nil => rfl
  | cons e h ih => cases e <;> simp [submittedOf, ih]

theorem dequeuedBy_append (h1 h2 : List (Event V E)) :
    dequeuedBy (h1 ++ h2) = dequeuedBy h1 ++ dequeuedBy h2 := by
  induction h1 with
  | nil => rfl
  | cons e h ih => cases e <;> simp [dequeuedBy, ih]

theorem invokedBy_append (h1 h2 : List (Event V E)) :
    invokedBy (h1 ++ h2) = invokedBy h1 ++ invokedBy h2 := by
  induction h1 with
  | nil => rfl
  | cons e h ih => cases e <;> simp [invokedBy, ih]

theorem dequeuedOf_append (h1 h2 : List (Event V E)) :
    dequeuedOf (h1 ++ h2) = dequeuedOf h1 ++ dequeuedOf h2 := by
  simp [dequeuedOf, dequeuedBy_append]

theorem invokedOf_append (h1 h2 : List (Event V E)) :
    invokedOf (h1 ++ h2) = invokedOf h1 ++ invokedOf h2 := by
  simp [invokedOf, invokedBy_append]

theorem mem_dequeuedOf {h : List (Event V E)} {t : function_wrapper V E} :
    t ∈ dequeuedOf h ↔ ∃ w, (w, t) ∈ dequeuedBy h := by
  simp [dequeuedOf]

theorem mem_invokedOf {h : List (Event V E)} {t : function_wrapper V E} :
    t ∈ invokedOf h ↔ ∃ w, (w, t) ∈ invokedBy h := by
  simp [invokedOf]

theorem resolve_ne_not_ready {b : Behaviour V E} (hb : b ≠ .diverges) :
    resolve b ≠ .not_ready := by
  cases b <;> simp [resolve] at hb ⊢

theorem Inv.channel_nodup {s : System V E} (h : Inv s) :
    ((submittedOf s.history).map function_wrapper.channel).Nodup := by
  rw [h.chans]
  exact (List.nodup_range _).map (Option.some_injective _)

theorem Inv.submitted_nodup {s : System V E} (h : Inv s) :
    (submittedOf s.history).Nodup :=
  List.Nodup.of_map _ h.channel_nodup

theorem Inv.dequeued_nodup {s : System V E} (h : Inv s) :
    (dequeuedOf s.history).Nodup := by
  have := h.submitted_nodup
  rw [← h.fifo] at this
  exact this.of_append_left

/-- Two dequeue records for wrappers with the same channel are the same record. -/
theorem Inv.dequeued_inj {s : System V E} (h : Inv s) {w1 w2 : Nat}
    {t1 t2 : function_wrapper V E} (h1 : (w1, t1) ∈ dequeuedBy s.history)
    (h2 : (w2, t2) ∈ dequeuedBy s.history) (hc : t1.channel = t2.channel) :
    w1 = w2 ∧ t1 = t2 := by
  have hn := h.channel_nodup
  rw [← h.fifo, List.map_append] at hn
  have hn1 := hn.of_append_left
  rw [dequeuedOf, List.map_map] at hn1
  have := List.inj_on_of_nodup_map hn1 h1 h2 hc
  exact ⟨congrArg Prod.fst this, congrArg Prod.snd this⟩

/-- A dequeued wrapper and a queued wrapper have different channels. -/
theorem Inv.dequeued_ne_queued {s : System V E} (h : Inv s) {w : Nat}
    {t1 t2 : function_wrapper V E} (h1 : (w, t1) ∈ dequeuedBy s.history)
    (h2 : t2 ∈ s.work_queue_) : t1.channel ≠ t2.channel := by
  have hn := h.channel_nodup
  rw [← h.fifo, List.map_append] at hn
  have hd := (List.nodup_append.1 hn).2.2
  intro hc
  exact List.disjoint_left.1 hd (List.mem_map.2 ⟨t1, mem_dequeuedOf.2 ⟨w, h1⟩, rfl⟩)
    (List.mem_map.2 ⟨t2, h2, hc.symm⟩)

theorem Inv.close {s : System V E} (h : Inv s) : Inv (thread_pool.close s) where
  alive := h.alive
  chans := by simpa [thread_pool.close, submittedOf_append, submittedOf] using h.chans
  fifo := by simpa [thread_pool.close, submittedOf_append, dequeuedOf_append, dequeuedBy_append, submittedOf,
    dequeuedOf, dequeuedBy] using h.fifo
  held := by simpa [thread_pool.close, dequeuedBy_append, dequeuedBy] using h.held
  queued := h.queued
  done := by
    simpa [thread_pool.close, dequeuedBy_append, dequeuedBy, invokedBy_append, invokedBy]
      using h.done
  owner := by
    simpa [thread_pool.close, dequeuedBy_append, dequeuedBy, invokedBy_append, invokedBy]
      using h.owner
  once := by simpa [thread_pool.close, invokedOf_append, invokedBy_append, invokedOf, invokedBy] using h.once
  live := fun _ _ => rfl
  workers := by simpa [thread_pool.close, dequeuedBy_append, dequeuedBy] using h.workers

theorem Inv.submit {s : System V E} (h : Inv s) {α : Type} (f : α → Behaviour V E)
    (args : α) : Inv (thread_pool.submit f args s).2 where
  alive := h.alive
  chans := by
    simp [thread_pool.submit, submittedOf_append, submittedOf, List.range_succ, h.chans,
      function_wrapper.channel]
  fifo := by
    simp [thread_pool.submit, submittedOf_append, dequeuedOf_append, dequeuedBy_append, submittedOf,
      dequeuedOf, dequeuedBy, ← h.fifo]
  held := by
    intro w t hw
    obtain ⟨h1, p, hp, hs⟩ := h.held w t hw
    refine ⟨?_, p, hp, getElem?_append_some hs⟩
    simpa [thread_pool.submit, dequeuedBy_append, dequeuedBy] using h1
  queued := by
    intro t ht
    simp only [thread_pool.submit, List.mem_append, List.mem_singleton] at ht
    rcases ht with ht | rfl
    · obtain ⟨p, hp, hs⟩ := h.queued t ht
      exact ⟨p, hp, getElem?_append_some hs⟩
    · exact ⟨_, rfl, by simp [thread_pool.submit]⟩
  done := by
    intro w t hw
    have hw1 : (w, t) ∈ invokedBy s.history := by
      simpa [thread_pool.submit, invokedBy_append, invokedBy] using hw
    obtain ⟨h1, p, hp, hs, hd⟩ := h.done w t hw1
    refine ⟨?_, p, hp, getElem?_append_some hs, hd⟩
    simpa [thread_pool.submit, dequeuedBy_append, dequeuedBy] using h1
  owner := by
    simpa [thread_pool.submit, dequeuedBy_append, dequeuedBy, invokedBy_append, invokedBy]
      using h.owner
  once := by simpa [thread_pool.submit, invokedOf_append, invokedBy_append, invokedOf, invokedBy] using h.once
  live := h.live
  workers := by simpa [thread_pool.submit, dequeuedBy_append, dequeuedBy] using h.workers

theorem getElem?_set_executing {l : List (thread V E)} {w w1 : Nat}
    {x : thread V E} {t : function_wrapper V E}
    (hx : ∀ t1, x ≠ .executing t1) (h : (l.set w x)[w1]? = some (.executing t)) :
    w ≠ w1 ∧ l[w1]? = some (.executing t) := by
  by_cases hww : w = w1
  · subst hww
    rw [List.getElem?_set] at h
    simp only [if_true] at h
    split at h
    · exact absurd (Option.some.inj h) (hx t)
    · exact absurd h (by simp)
  · rw [List.getElem?_set_ne hww] at h
    exact ⟨hww, h⟩

theorem Inv.idle_poll {s : System V E} (h : Inv s) {w : Nat}
    (hw : s.threads_[w]? = some .idle_poll) : Inv (thread_pool.idle_poll w s) := by
  have hlt := lt_of_getElem?_some hw
  unfold thread_pool.idle_poll
  split
  · rename_i hc
    exact
      { alive := h.alive
        chans := h.chans
        fifo := h.fifo
        held := by
          intro w1 t h1
          obtain ⟨_, h2⟩ := getElem?_set_executing (by simp) h1
          exact h.held w1 t h2
        queued := h.queued
        done := h.done
        owner := by
          intro w1 t h1
          rcases h.owner w1 t h1 with h2 | h2
          · left
            have hne : w ≠ w1 := by
              rintro rfl
              rw [hw] at h2
              cases h2
            simpa [List.getElem?_set_ne hne] using h2
          · exact Or.inr h2
        once := h.once
        live := fun _ _ => hc
        workers := by
          intro w1 t h1
          simpa using h.workers w1 t h1 }
  · rename_i hc
    split
    · rename_i task rest hq
      have hfifo := h.fifo
      rw [hq] at hfifo
      exact
        { alive := h.alive
          chans := by simpa [submittedOf_append, submittedOf] using h.chans
          fifo := by
            simp [submittedOf_append, dequeuedOf_append, dequeuedBy_append, submittedOf, dequeuedOf,
              dequeuedBy, ← hfifo]
          held := by
            intro w1 t h1
            by_cases hww : w = w1
            · subst hww
              simp only [List.getElem?_set_self hlt, Option.some.injEq,
                thread.executing.injEq] at h1
              subst h1
              refine ⟨by simp [dequeuedBy_append, dequeuedBy], ?_⟩
              exact h.queued task (by simp [hq])
            · simp only [List.getElem?_set_ne hww] at h1
              obtain ⟨h2, h3⟩ := h.held w1 t h1
              exact ⟨by simp [dequeuedBy_append, h2], h3⟩
          queued := fun t ht => h.queued t (by simp [hq, ht])
          done := by
            intro w1 t h1
            have h2 : (w1, t) ∈ invokedBy s.history := by
              simpa [invokedBy_append, invokedBy] using h1
            obtain ⟨h3, h4⟩ := h.done w1 t h2
            exact ⟨by simp [dequeuedBy_append, h3], h4⟩
          owner := by
            intro w1 t h1
            simp only [dequeuedBy_append, dequeuedBy, List.mem_append,
              List.mem_singleton, Prod.mk.injEq] at h1
            rcases h1 with h1 | ⟨rfl, rfl⟩
            · rcases h.owner w1 t h1 with h2 | h2
              · left
                have hne : w ≠ w1 := by
                  rintro rfl
                  rw [hw] at h2
                  cases h2
                simpa [List.getElem?_set_ne hne] using h2
              · right
                simpa [invokedBy_append, invokedBy] using h2
            · left
              simp [List.getElem?_set_self hlt]
          once := by simpa [invokedOf_append, invokedBy_append, invokedOf, invokedBy] using h.once
          live := by
            intro w1 h1
            by_cases hww : w = w1
            · subst hww
              simp [List.getElem?_set_self hlt] at h1
            · rw [List.getElem?_set_ne hww] at h1
              exact h.live w1 h1
          workers := by
            intro w1 t h1
            simp only [dequeuedBy_append, dequeuedBy, List.mem_append,
              List.mem_singleton, Prod.mk.injEq] at h1
            rcases h1 with h1 | ⟨rfl, rfl⟩
            · simpa using h.workers w1 t h1
            · simpa using hlt }
    · exact h

/-- The call of a packaged task whose shared state is not ready and whose
callable ends: the state is made ready and the worker is back at the top of
its loop. -/
theorem execute_packaged {s : System V E} {w : Nat} {p : packaged_task V E}
    (hs : s.shared[p.state]? = some .not_ready) (hd : p.fn () ≠ .diverges) :
    thread_pool.execute w ⟨.packaged p⟩ s =
      { s with
        shared := s.shared.set p.state (resolve (p.fn ()))
        threads_ := s.threads_.set w .idle_poll
        history := s.history ++ [.invoked w ⟨.packaged p⟩] } := by
  have hlt := lt_of_getElem?_some hs
  unfold thread_pool.execute function_wrapper.call packaged_task.call
  simp only [hs]
  cases hf : p.fn () with
  | returns v =>
    simp [resolve, function_wrapper.destroy, packaged_task.destroy, List.getElem?_set_self hlt]
  | raises e =>
    simp [resolve, function_wrapper.destroy, packaged_task.destroy, List.getElem?_set_self hlt]
  | diverges => exact absurd hf hd

/-- The call of a packaged task whose callable never returns changes nothing. -/
theorem execute_packaged_diverges {s : System V E} {w : Nat} {p : packaged_task V E}
    (hs : s.shared[p.state]? = some .not_ready) (hd : p.fn () = .diverges) :
    thread_pool.execute w ⟨.packaged p⟩ s = s := by
  unfold thread_pool.execute function_wrapper.call packaged_task.call
  simp [hs, hd]

theorem Inv.execute {s : System V E} (h : Inv s) {w : Nat} {t : function_wrapper V E}
    (hw : s.threads_[w]? = some (.executing t)) : Inv (thread_pool.execute w t s) := by
  have hlt := lt_of_getElem?_some hw
  obtain ⟨hdq, p, rfl, hs⟩ := h.held w _ hw
  by_cases hd : p.fn () = .diverges
  · rw [execute_packaged_diverges hs hd]
    exact h
  rw [execute_packaged hs hd]
  have hplt := lt_of_getElem?_some hs
  have hfresh : ∀ w1, (w1, (⟨.packaged p⟩ : function_wrapper V E)) ∉ invokedBy s.history := by
    intro w1 h1
    obtain ⟨_, p1, hp1, hs1, hd1⟩ := h.done w1 _ h1
    cases hp1
    rw [hs] at hs1
    exact resolve_ne_not_ready hd1 (Option.some.inj hs1).symm
  exact
    { alive := h.alive
      chans := by simpa [submittedOf_append, submittedOf] using h.chans
      fifo := by
        simpa [submittedOf_append, dequeuedOf_append, dequeuedBy_append, submittedOf,
          dequeuedOf, dequeuedBy] using h.fifo
      held := by
        intro w1 t1 h1
        obtain ⟨hne, h2⟩ := getElem?_set_executing (by simp) h1
        obtain ⟨h3, p1, rfl, hs1⟩ := h.held w1 _ h2
        refine ⟨by simpa [dequeuedBy_append, dequeuedBy] using h3, p1, rfl, ?_⟩
        have hpne : p.state ≠ p1.state := by
          intro hc
          exact hne (h.dequeued_inj hdq h3 (by simp [function_wrapper.channel, hc])).1
        simpa [List.getElem?_set_ne hpne] using hs1
      queued := by
        intro t1 ht1
        obtain ⟨p1, rfl, hs1⟩ := h.queued t1 ht1
        refine ⟨p1, rfl, ?_⟩
        have hpne : p.state ≠ p1.state := by
          intro hc
          exact h.dequeued_ne_queued hdq ht1 (by simp [function_wrapper.channel, hc])
        simpa [List.getElem?_set_ne hpne] using hs1
      done := by
        intro w1 t1 h1
        simp only [invokedBy_append, invokedBy, List.mem_append, List.mem_singleton,
          Prod.mk.injEq] at h1
        rcases h1 with h1 | ⟨rfl, rfl⟩
        · obtain ⟨h3, p1, rfl, hs1, hd1⟩ := h.done w1 _ h1
          refine ⟨by simpa [dequeuedBy_append, dequeuedBy] using h3, p1, rfl, ?_, hd1⟩
          have hpne : p.state ≠ p1.state := by
            intro hc
            rw [← hc, hs] at hs1
            exact resolve_ne_not_ready hd1 (Option.some.inj hs1).symm
          simpa [List.getElem?_set_ne hpne] using hs1
        · refine ⟨by simpa [dequeuedBy_append, dequeuedBy] using hdq, p, rfl, ?_, hd⟩
          simp [List.getElem?_set_self hplt]
      owner := by
        intro w1 t1 h1
        have h2 : (w1, t1) ∈ dequeuedBy s.history := by
          simpa [dequeuedBy_append, dequeuedBy] using h1
        rcases h.owner w1 t1 h2 with h3 | h3
        · by_cases hww : w = w1
          · subst hww
            rw [hw] at h3
            cases h3
            right
            simp [invokedBy_append, invokedBy]
          · left
            simpa [List.getElem?_set_ne hww] using h3
        · right
          simp [invokedBy_append, h3]
      once := by
        have hn : (⟨.packaged p⟩ : function_wrapper V E) ∉ invokedOf s.history := by
          intro hm
          obtain ⟨w1, h1⟩ := mem_invokedOf.1 hm
          exact hfresh w1 h1
        simp only [invokedOf_append, invokedOf, invokedBy_append, invokedBy, List.map_append,
          List.map_cons, List.map_nil]
        rw [List.nodup_append]
        refine ⟨h.once, List.nodup_singleton _, ?_⟩
        intro a ha hb
        rw [List.mem_singleton] at hb
        subst hb
        exact hn ha
      live := by
        intro w1 h1
        by_cases hww : w = w1
        · subst hww
          simp [List.getElem?_set_self hlt] at h1
        · rw [List.getElem?_set_ne hww] at h1
          exact h.live w1 h1
      workers := by
        intro w1 t h1
        have h2 : (w1, t) ∈ dequeuedBy s.history := by
          simpa [dequeuedBy_append, dequeuedBy] using h1
        simpa using h.workers w1 t h2 }

theorem Inv.worker_thread {s : System V E} (h : Inv s) (w : Nat) :
    Inv (thread_pool.worker_thread w s) := by
  unfold thread_pool.worker_thread
  split
  · rename_i hw
    exact h.idle_poll hw
  · rename_i task hw
    exact h.execute hw
  · exact h

theorem Inv.step_act {s : System V E} (h : Inv s) (a : Action V E) : Inv (step a s) := by
  unfold step
  split
  · exact h
  · cases a with
    | submit f => exact h.submit f ()
    | worker w => exact h.worker_thread w
    | close => exact h.close

theorem Inv.run_acts {s : System V E} (h : Inv s) (acts : List (Action V E)) :
    Inv (run acts s) := by
  induction acts generalizing s with
  | nil => exact h
  | cons a acts ih => exact ih (h.step_act a)

theorem Inv.at_start (garbage : Bool) (n : Nat) : Inv (started garbage n : System V E) where
  alive := rfl
  chans := rfl
  fifo := rfl
  held := by
    intro w t h
    simp only [tds.started, List.getElem?_replicate] at h
    split at h <;> simp at h
  queued := by simp [tds.started]
  done := by simp [tds.started, invokedBy]
  owner := by simp [tds.started, dequeuedBy]
  once := by simp [tds.started, invokedOf, invokedBy]
  live := by
    intro w h
    simp only [tds.started, List.getElem?_replicate] at h
    split at h <;> simp at h
  workers := by simp [tds.started, dequeuedBy]

theorem start_threads_pool (start_ok : Nat → Bool) (n i : Nat) (s s0 : System V E)
    (h : thread_pool.start_threads start_ok n i s = .pool s0) :
    s0 = { s with threads_ := s.threads_ ++ List.replicate n .idle_poll } := by
  induction n generalizing i s with
  | zero =>
    simp only [thread_pool.start_threads, Constructed.pool.injEq] at h
    simp [← h]
  | succ n ih =>
    rw [thread_pool.start_threads] at h
    split at h
    · rw [ih _ _ h]
      simp [List.replicate_succ]
    · cases h

/-- A pool the constructor returns is in the state `started`. -/
theorem constructed_eq {garbage : Bool} {n : Nat} {start_ok : Nat → Bool} {s0 : System V E}
    (hc : thread_pool.thread_pool garbage n start_ok = .pool s0) : s0 = started garbage n := by
  have := start_threads_pool _ _ _ _ _ hc
  simpa [started] using this

theorem Inv.reachable {garbage : Bool} {n : Nat} {start_ok : Nat → Bool} {s0 : System V E}
    (hc : thread_pool.thread_pool garbage n start_ok = .pool s0) (acts : List (Action V E)) :
    Inv (run acts s0) := by
  rw [constructed_eq hc]
  exact (Inv.at_start garbage n).run_acts acts

theorem idle_poll_length (w : Nat) (s : System V E) :
    (thread_pool.idle_poll w s).threads_.length = s.threads_.length := by
  unfold thread_pool.idle_poll
  split
  · simp
  · split <;> simp

theorem execute_length (w : Nat) (t : function_wrapper V E) (s : System V E) :
    (thread_pool.execute w t s).threads_.length = s.threads_.length := by
  unfold thread_pool.execute
  split <;> simp

theorem step_length (a : Action V E) (s : System V E) :
    (step a s).threads_.length = s.threads_.length := by
  unfold step
  split
  · rfl
  · cases a with
    | submit f => rfl
    | worker w =>
      simp only [thread_pool.worker_thread]
      split
      · exact idle_poll_length _ _
      · exact execute_length _ _ _
      · rfl
    | close => rfl

theorem run_length (acts : List (Action V E)) (s : System V E) :
    (run acts s).threads_.length = s.threads_.length := by
  induction acts generalizing s with
  | nil => rfl
  | cons a acts ih =>
    show (run acts (step a s)).threads_.length = _
    rw [ih, step_length]

theorem reachable_length {garbage : Bool} {n : Nat} {start_ok : Nat → Bool} {s0 : System V E}
    (hc : thread_pool.thread_pool garbage n start_ok = .pool s0) (acts : List (Action V E)) :
    (run acts s0).threads_.length = n := by
  rw [run_length, constructed_eq hc]
  simp [started]

/-- In a duplicate-free list split as `d ++ q`, whatever stands before an
element of `d` is in `d` too. -/
theorem mem_front_of_later {α : Type} {l d q : List α} (hl : d ++ q = l) (hn : l.Nodup)
    {i j : Nat} {a c : α} (hij : i < j) (ha : l[i]? = some a) (hc : l[j]? = some c)
    (hcd : c ∈ d) : a ∈ d := by
  obtain ⟨m, hm⟩ := List.mem_iff_getElem?.1 hcd
  have hml : l[m]? = some c := by
    rw [← hl]
    exact getElem?_append_some hm
  have hmj : m = j := List.getElem?_inj (lt_of_getElem?_some hml) hn (hml.trans hc.symm)
  have hid : i < d.length := by
    have := lt_of_getElem?_some hm
    omega
  have hda : d[i]? = some a := by
    rw [← hl, List.getElem?_append_left hid] at ha
    exact ha
  exact List.getElem?_mem hda

/-- C1 (FIFO dequeue order): in every state reachable from a constructed pool
by submit, worker steps (idle-poll or execute) and close, the wrappers dequeued
so far, in dequeue order, followed by the queue, are the wrappers submitted so
far, in submission order; nothing is submitted or dequeued twice; and whenever
a submitted wrapper has been dequeued, every wrapper submitted before it has
been dequeued as well. -/
theorem fifo_dequeue_order (garbage : Bool) (n : Nat) (start_ok : Nat → Bool)
    (s0 : System V E) (acts : List (Action V E))
    (hc : thread_pool.thread_pool garbage n start_ok = Constructed.pool s0) :
    dequeuedOf (run acts s0).history ++ (run acts s0).work_queue_
        = submittedOf (run acts s0).history
      ∧ (submittedOf (run acts s0).history).Nodup
      ∧ (dequeuedOf (run acts s0).history).Nodup
      ∧ ∀ (i j : Nat) (a c : function_wrapper V E), i < j →
          (submittedOf (run acts s0).history)[i]? = some a →
          (submittedOf (run acts s0).history)[j]? = some c →
          c ∈ dequeuedOf (run acts s0).history → a ∈ dequeuedOf (run acts s0).history := by
  have h := Inv.reachable hc acts
  refine ⟨h.fifo, h.submitted_nodup, h.dequeued_nodup, ?_⟩
  intro i j a c hij ha hc1 hcd
  exact mem_front_of_later h.fifo h.submitted_nodup hij ha hc1 hcd

/-- C3 (submit frame): from any state, flag set or not, `submit` appends exactly
one wrapper, the packaged task around the bound callable, at the back of the
queue; the elements already queued keep their positions; the flag, the threads
and the terminate bit are unchanged; nothing is dequeued or invoked; the
existing shared states are unchanged; and the returned future is a new shared
state, not ready, which is the one the appended wrapper is linked to. -/
theorem submit_frame {α : Type} (f : α → Behaviour V E) (args : α) (s : System V E) :
    (thread_pool.submit f args s).2.work_queue_
        = s.work_queue_ ++ [⟨.packaged ⟨(thread_pool.submit f args s).1, fun _ => f args⟩⟩]
      ∧ (∀ (i : Nat), i < s.work_queue_.length →
          (thread_pool.submit f args s).2.work_queue_[i]? = s.work_queue_[i]?)
      ∧ (thread_pool.submit f args s).2.closed_ = s.closed_
      ∧ (thread_pool.submit f args s).2.threads_ = s.threads_
      ∧ (thread_pool.submit f args s).2.terminate_called = s.terminate_called
      ∧ invokedBy (thread_pool.submit f args s).2.history = invokedBy s.history
      ∧ dequeuedBy (thread_pool.submit f args s).2.history = dequeuedBy s.history
      ∧ (∀ (c : Nat), c < s.shared.length →
          (thread_pool.submit f args s).2.shared[c]? = s.shared[c]?)
      ∧ (thread_pool.submit f args s).2.shared.length = s.shared.length + 1
      ∧ (thread_pool.submit f args s).1 = s.shared.length
      ∧ (thread_pool.submit f args s).2.shared[(thread_pool.submit f args s).1]?
          = some .not_ready := by
  refine ⟨rfl, ?_, rfl, rfl, rfl, ?_, ?_, ?_, ?_, rfl, ?_⟩
  · intro i hi
    simp [thread_pool.submit, List.getElem?_append_left hi]
  · simp [thread_pool.submit, invokedBy_append, invokedBy]
  · simp [thread_pool.submit, dequeuedBy_append, dequeuedBy]
  · intro c hc
    simp [thread_pool.submit, List.getElem?_append_left hc]
  · simp [thread_pool.submit]
  · simp [thread_pool.submit]

theorem call_keeps_resolved (t : function_wrapper V E) (sh : List (shared_state V E))
    {c : Nat} {x : shared_state V E} (hx : sh[c]? = some x) (hne : x ≠ .not_ready) :
    (t.call sh).2[c]? = some x := by
  unfold function_wrapper.call
  split
  · rename_i p _
    unfold packaged_task.call
    split
    · rename_i hp
      have hpc : p.state ≠ c := by
        rintro rfl
        rw [hx] at hp
        exact hne (Option.some.inj hp)
      split <;> simp [List.getElem?_set_ne hpc, hx]
    · exact hx
  · split <;> exact hx

theorem call_thrown (t : function_wrapper V E) (sh : List (shared_state V E))
    (h : (t.call sh).1 = .thrown) : t.call sh = (.thrown, sh) := by
  unfold function_wrapper.call at h ⊢
  split
  · rename_i p hp
    simp only [hp] at h
    unfold packaged_task.call at h ⊢
    split
    · rename_i hs
      simp only [hs] at h
      split at h <;> simp at h
    · rfl
  · rename_i f hf
    simp only [hf] at h
    split at h <;> simp_all

theorem destroy_keeps_resolved (t : function_wrapper V E) (sh : List (shared_state V E))
    {c : Nat} {x : shared_state V E} (hx : sh[c]? = some x) (hne : x ≠ .not_ready) :
    (t.destroy sh)[c]? = some x := by
  unfold function_wrapper.destroy
  split
  · rename_i p _
    unfold packaged_task.destroy
    split
    · rename_i hp
      have hpc : p.state ≠ c := by
        rintro rfl
        rw [hx] at hp
        exact hne (Option.some.inj hp)
      simpa [List.getElem?_set_ne hpc] using hx
    · exact hx
  · exact hx

theorem execute_shared (w : Nat) (t : function_wrapper V E) (s : System V E) :
    (thread_pool.execute w t s).shared = t.destroy (t.call s.shared).2
      ∨ (thread_pool.execute w t s).shared = (t.call s.shared).2
      ∨ (thread_pool.execute w t s).shared = s.shared := by
  unfold thread_pool.execute
  split
  · rename_i h
    left
    simp [h]
  · rename_i h
    right
    left
    simp [h]
  · right
    right
    rfl

theorem idle_poll_shared (w : Nat) (s : System V E) :
    (thread_pool.idle_poll w s).shared = s.shared := by
  unfold thread_pool.idle_poll
  split
  · rfl
  · split <;> rfl

theorem step_keeps_resolved (a : Action V E) (s : System V E) {c : Nat}
    {x : shared_state V E} (hx : s.shared[c]? = some x) (hne : x ≠ .not_ready) :
    (step a s).shared[c]? = some x := by
  unfold step
  split
  · exact hx
  · cases a with
    | submit f => exact getElem?_append_some hx
    | worker w =>
      simp only [thread_pool.worker_thread]
      split
      · rw [idle_poll_shared]
        exact hx
      · rename_i task _
        rcases execute_shared w task s with h | h | h
        · rw [h]
          exact destroy_keeps_resolved _ _ (call_keeps_resolved _ _ hx hne) hne
        · rw [h]
          exact call_keeps_resolved _ _ hx hne
        · rw [h]
          exact hx
      · exact hx
    | close => exact hx

theorem run_keeps_resolved (acts : List (Action V E)) (s : System V E) {c : Nat}
    {x : shared_state V E} (hx : s.shared[c]? = some x) (hne : x ≠ .not_ready) :
    (run acts s).shared[c]? = some x := by
  induction acts generalizing s with
  | nil => exact hx
  | cons a acts ih => exact ih (step a s) (step_keeps_resolved a s hx hne)

/-- A worker step of a live system is a step of `worker_thread`. -/
theorem step_worker {s : System V E} (w : Nat) (h : s.terminate_called = false) :
    step (.worker w) s = thread_pool.worker_thread w s := by
  simp [step, h]

theorem worker_thread_executing {s : System V E} {w : Nat} {t : function_wrapper V E}
    (hw : s.threads_[w]? = some (.executing t)) :
    thread_pool.worker_thread w s = thread_pool.execute w t s := by
  simp [thread_pool.worker_thread, hw]

theorem worker_thread_idle {s : System V E} {w : Nat}
    (hw : s.threads_[w]? = some .idle_poll) :
    thread_pool.worker_thread w s = thread_pool.idle_poll w s := by
  simp [thread_pool.worker_thread, hw]

theorem idle_poll_invoked (w : Nat) (s : System V E) :
    invokedBy (thread_pool.idle_poll w s).history = invokedBy s.history := by
  unfold thread_pool.idle_poll
  split
  · rfl
  · split
    · simp [invokedBy_append, invokedBy]
    · rfl

/-- C2 (tasks run exactly once): in every reachable state no wrapper occurs
twice among the invocations made so far; every invocation was made by a worker
thread of the pool that had dequeued that wrapper, which was submitted; no
second worker has invoked it; a wrapper that a worker dequeued and no longer
holds has been invoked by that worker.  An invocation is a run of the
callable: the shared state of every invoked wrapper holds what its callable
produces, the shared state of every submitted wrapper not invoked yet is still
not ready, and a worker step either logs no invocation and changes no shared
state, or logs exactly one, of the wrapper the worker holds, and takes that
wrapper's shared state from not ready to what its callable produces. -/
theorem tasks_run_exactly_once (garbage : Bool) (n : Nat) (start_ok : Nat → Bool)
    (s0 : System V E) (acts : List (Action V E))
    (hc : thread_pool.thread_pool garbage n start_ok = Constructed.pool s0) :
    (invokedOf (run acts s0).history).Nodup
      ∧ (∀ (w : Nat) (t : function_wrapper V E), (w, t) ∈ invokedBy (run acts s0).history →
          w < n ∧ (run acts s0).threads_.length = n
            ∧ (w, t) ∈ dequeuedBy (run acts s0).history
            ∧ t ∈ submittedOf (run acts s0).history)
      ∧ (∀ (w w1 : Nat) (t : function_wrapper V E),
          (w, t) ∈ invokedBy (run acts s0).history →
          (w1, t) ∈ invokedBy (run acts s0).history → w1 = w)
      ∧ (∀ (w : Nat) (t : function_wrapper V E), (w, t) ∈ dequeuedBy (run acts s0).history →
          (run acts s0).threads_[w]? ≠ some (.executing t) →
          (w, t) ∈ invokedBy (run acts s0).history)
      ∧ (∀ (w : Nat) (t : function_wrapper V E), (w, t) ∈ invokedBy (run acts s0).history →
          ∃ p : packaged_task V E, t = ⟨.packaged p⟩ ∧ p.fn () ≠ .diverges
            ∧ (run acts s0).shared[p.state]? = some (resolve (p.fn ())))
      ∧ (∀ (t : function_wrapper V E), t ∈ submittedOf (run acts s0).history →
          t ∉ invokedOf (run acts s0).history →
          ∃ p : packaged_task V E, t = ⟨.packaged p⟩
            ∧ (run acts s0).shared[p.state]? = some .not_ready)
      ∧ (∀ (w : Nat),
          (invokedBy (step (.worker w) (run acts s0)).history = invokedBy (run acts s0).history
              ∧ (step (.worker w) (run acts s0)).shared = (run acts s0).shared)
            ∨ ∃ p : packaged_task V E,
                (run acts s0).threads_[w]? = some (.executing ⟨.packaged p⟩)
                  ∧ (run acts s0).shared[p.state]? = some .not_ready
                  ∧ p.fn () ≠ .diverges
                  ∧ invokedBy (step (.worker w) (run acts s0)).history
                      = invokedBy (run acts s0).history ++ [(w, ⟨.packaged p⟩)]
                  ∧ (step (.worker w) (run acts s0)).shared
                      = (run acts s0).shared.set p.state (resolve (p.fn ()))) := by
  have h := Inv.reachable hc acts
  have hlen := reachable_length hc acts
  refine ⟨h.once, ?_, ?_, ?_, ?_, ?_, ?_⟩
  · intro w t hw
    have hd := (h.done w t hw).1
    refine ⟨hlen ▸ h.workers w t hd, hlen, hd, ?_⟩
    rw [← h.fifo]
    exact List.mem_append_left _ (mem_dequeuedOf.2 ⟨w, hd⟩)
  · intro w w1 t hw hw1
    exact (h.dequeued_inj (h.done w1 t hw1).1 (h.done w t hw).1 rfl).1
  · intro w t hd hne
    rcases h.owner w t hd with h1 | h1
    · exact absurd h1 hne
    · exact h1
  · intro w t hw
    obtain ⟨_, p, hp, hs, hd⟩ := h.done w t hw
    exact ⟨p, hp, hd, hs⟩
  · intro t ht hni
    rw [← h.fifo] at ht
    rcases List.mem_append.1 ht with hd | hq
    · obtain ⟨w, hw⟩ := mem_dequeuedOf.1 hd
      rcases h.owner w t hw with h1 | h1
      · exact (h.held w t h1).2
      · exact absurd (mem_invokedOf.2 ⟨w, h1⟩) hni
    · exact h.queued t hq
  · intro w
    rw [step_worker w h.alive]
    cases hw : (run acts s0).threads_[w]? with
    | none => exact Or.inl (by simp [thread_pool.worker_thread, hw])
    | some x =>
      cases x with
      | idle_poll =>
        rw [worker_thread_idle hw]
        exact Or.inl ⟨idle_poll_invoked w _, idle_poll_shared w _⟩
      | executing t =>
        obtain ⟨_, p, rfl, hs⟩ := h.held w t hw
        rw [worker_thread_executing hw]
        by_cases hd : p.fn () = .diverges
        · rw [execute_packaged_diverges hs hd]
          exact Or.inl ⟨rfl, rfl⟩
        · rw [execute_packaged hs hd]
          exact Or.inr ⟨p, rfl, hs, hd, by simp [invokedBy_append, invokedBy], rfl⟩
      | terminated => exact Or.inl (by simp [thread_pool.worker_thread, hw])
      | joined => exact Or.inl (by simp [thread_pool.worker_thread, hw])

/-- C4 (result channel): in every reachable state, the wrapper a worker holds is
a packaged task that was submitted; when the worker invokes it, its shared state
receives the value the callable returns, or the failure it raises; either way
the worker is back at idle-poll and `std::terminate` is not called; every other
shared state, the queue and the other threads are unchanged; and a shared state
that is ready is never changed by any later sequence of steps. -/
theorem result_channel_resolved (garbage : Bool) (n : Nat) (start_ok : Nat → Bool)
    (s0 : System V E) (acts : List (Action V E)) (w : Nat) (t : function_wrapper V E)
    (hc : thread_pool.thread_pool garbage n start_ok = Constructed.pool s0)
    (hw : (run acts s0).threads_[w]? = some (.executing t)) :
    ∃ p : packaged_task V E, t = ⟨.packaged p⟩
      ∧ t ∈ submittedOf (run acts s0).history
      ∧ (∀ (v : V), p.fn () = .returns v →
          (step (.worker w) (run acts s0)).shared[p.state]? = some (.value v)
            ∧ (step (.worker w) (run acts s0)).threads_[w]? = some .idle_poll)
      ∧ (∀ (e : E), p.fn () = .raises e →
          (step (.worker w) (run acts s0)).shared[p.state]? = some (.exception e)
            ∧ (step (.worker w) (run acts s0)).threads_[w]? = some .idle_poll)
      ∧ (step (.worker w) (run acts s0)).terminate_called = false
      ∧ (∀ (c : Nat), c ≠ p.state →
          (step (.worker w) (run acts s0)).shared[c]? = (run acts s0).shared[c]?)
      ∧ (step (.worker w) (run acts s0)).work_queue_ = (run acts s0).work_queue_
      ∧ (∀ (w1 : Nat), w1 ≠ w →
          (step (.worker w) (run acts s0)).threads_[w1]? = (run acts s0).threads_[w1]?)
      ∧ (∀ (more : List (Action V E)) (c : Nat) (x : shared_state V E),
          (run acts s0).shared[c]? = some x → x ≠ .not_ready →
          (run more (run acts s0)).shared[c]? = some x) := by
  have h := Inv.reachable hc acts
  obtain ⟨hdq, p, rfl, hs⟩ := h.held w _ hw
  have hlt := lt_of_getElem?_some hw
  have hplt := lt_of_getElem?_some hs
  have hsub : (⟨.packaged p⟩ : function_wrapper V E) ∈ submittedOf (run acts s0).history := by
    rw [← h.fifo]
    exact List.mem_append_left _ (mem_dequeuedOf.2 ⟨w, hdq⟩)
  rw [step_worker w h.alive, worker_thread_executing hw]
  refine ⟨p, rfl, hsub, ?_, ?_, ?_, ?_, ?_, ?_, ?_⟩
  · intro v hv
    have hd : p.fn () ≠ .diverges := by simp [hv]
    rw [execute_packaged hs hd]
    simp [hv, resolve, List.getElem?_set_self hplt, List.getElem?_set_self hlt]
  · intro e he
    have hd : p.fn () ≠ .diverges := by simp [he]
    rw [execute_packaged hs hd]
    simp [he, resolve, List.getElem?_set_self hplt, List.getElem?_set_self hlt]
  · exact (h.execute hw).alive
  · intro c hcp
    by_cases hd : p.fn () = .diverges
    · rw [execute_packaged_diverges hs hd]
    · rw [execute_packaged hs hd]
      simp [List.getElem?_set_ne (Ne.symm hcp)]
  · by_cases hd : p.fn () = .diverges
    · rw [execute_packaged_diverges hs hd]
    · rw [execute_packaged hs hd]
  · intro w1 hw1
    by_cases hd : p.fn () = .diverges
    · rw [execute_packaged_diverges hs hd]
    · rw [execute_packaged hs hd]
      simp [List.getElem?_set_ne (Ne.symm hw1)]
  · intro more c x hx hne
    exact run_keeps_resolved more _ hx hne

/-- C9 (escaped failure): when the call of the wrapper a worker holds lets an
exception out, the worker's step calls `std::terminate`: the worker is not back
at idle-poll, no shared state receives the failure, the queue is untouched, and
no further step of anything happens. -/
theorem escaped_failure_terminates (s : System V E) (w : Nat) (t : function_wrapper V E)
    (halive : s.terminate_called = false)
    (hw : s.threads_[w]? = some (.executing t))
    (hesc : (t.call s.shared).1 = .thrown) :
    (step (.worker w) s).terminate_called = true
      ∧ (step (.worker w) s).threads_[w]? = some (.executing t)
      ∧ (step (.worker w) s).threads_ = s.threads_
      ∧ (step (.worker w) s).shared = s.shared
      ∧ (step (.worker w) s).work_queue_ = s.work_queue_
      ∧ ∀ (a : Action V E), step a (step (.worker w) s) = step (.worker w) s := by
  have hcall := call_thrown t s.shared hesc
  have hstep : step (.worker w) s =
      { s with terminate_called := true, history := s.history ++ [.invoked w t] } := by
    rw [step_worker w halive, worker_thread_executing hw]
    unfold thread_pool.execute
    rw [hcall]
  rw [hstep]
  refine ⟨rfl, hw, rfl, rfl, rfl, ?_⟩
  intro a
  simp [step]

theorem step_closed (a : Action V E) {s : System V E} (h : s.closed_ = true) :
    (step a s).closed_ = true := by
  unfold step
  split
  · exact h
  · cases a with
    | submit f => exact h
    | worker w =>
      simp only [thread_pool.worker_thread]
      split
      · simp [thread_pool.idle_poll, h]
      · unfold thread_pool.execute
        split <;> exact h
      · exact h
    | close => rfl

/-- With the flag set no step removes anything from the queue. -/
theorem step_queue_closed (a : Action V E) {s : System V E} (h : s.closed_ = true) :
    ∃ new, (step a s).work_queue_ = s.work_queue_ ++ new
      ∧ submittedOf (step a s).history = submittedOf s.history ++ new
      ∧ dequeuedBy (step a s).history = dequeuedBy s.history := by
  unfold step
  split
  · exact ⟨[], by simp⟩
  · cases a with
    | submit f =>
      exact ⟨[⟨.packaged ⟨s.shared.length, fun _ => f ()⟩⟩], rfl,
        by simp [thread_pool.submit, submittedOf_append, submittedOf],
        by simp [thread_pool.submit, dequeuedBy_append, dequeuedBy]⟩
    | worker w =>
      refine ⟨[], ?_⟩
      simp only [thread_pool.worker_thread]
      split
      · simp [thread_pool.idle_poll, h]
      · unfold thread_pool.execute
        split <;>
          simp [submittedOf_append, submittedOf, dequeuedBy_append, dequeuedBy]
      · simp
    | close =>
      exact ⟨[], by
        simp [thread_pool.close, submittedOf_append, submittedOf, dequeuedBy_append,
          dequeuedBy]⟩

theorem run_closed (acts : List (Action V E)) {s : System V E} (h : s.closed_ = true) :
    (run acts s).closed_ = true := by
  induction acts generalizing s with
  | nil => exact h
  | cons a acts ih => exact ih (step_closed a h)

theorem run_queue_closed (acts : List (Action V E)) {s : System V E} (h : s.closed_ = true) :
    ∃ new, (run acts s).work_queue_ = s.work_queue_ ++ new
      ∧ submittedOf (run acts s).history = submittedOf s.history ++ new
      ∧ dequeuedBy (run acts s).history = dequeuedBy s.history := by
  induction acts generalizing s with
  | nil => exact ⟨[], by simp [run]⟩
  | cons a acts ih =>
    obtain ⟨new1, h1, h2, h3⟩ := step_queue_closed a h
    obtain ⟨new2, h4, h5, h6⟩ := ih (step_closed a h)
    refine ⟨new1 ++ new2, ?_, ?_, ?_⟩
    · show (run acts (step a s)).work_queue_ = _
      rw [h4, h1, List.append_assoc]
    · show submittedOf (run acts (step a s)).history = _
      rw [h5, h2, List.append_assoc]
    · show dequeuedBy (run acts (step a s)).history = _
      rw [h6, h3]

theorem destroy_keeps_broken (t : function_wrapper V E) (sh : List (shared_state V E))
    {c : Nat} (h : sh[c]? = some .broken_promise) :
    (t.destroy sh)[c]? = some .broken_promise := by
  unfold function_wrapper.destroy
  split
  · rename_i p _
    unfold packaged_task.destroy
    split
    · rename_i hp
      have hpc : p.state ≠ c := by
        rintro rfl
        rw [h] at hp
        cases hp
      simpa [List.getElem?_set_ne hpc] using h
    · exact h
  · exact h

theorem destroy_pending (t : function_wrapper V E) (sh : List (shared_state V E))
    {c : Nat} (h : sh[c]? = some .not_ready ∨ sh[c]? = some .broken_promise) :
    (t.destroy sh)[c]? = some .not_ready ∨ (t.destroy sh)[c]? = some .broken_promise := by
  rcases h with h | h
  · unfold function_wrapper.destroy
    split
    · rename_i p _
      unfold packaged_task.destroy
      split
      · by_cases hpc : p.state = c
        · right
          subst hpc
          simp [List.getElem?_set_self (lt_of_getElem?_some h)]
        · left
          simpa [List.getElem?_set_ne hpc] using h
      · exact Or.inl h
    · exact Or.inl h
  · exact Or.inr (destroy_keeps_broken t sh h)

theorem destroy_self (p : packaged_task V E) (sh : List (shared_state V E))
    (h : sh[p.state]? = some .not_ready ∨ sh[p.state]? = some .broken_promise) :
    ((⟨.packaged p⟩ : function_wrapper V E).destroy sh)[p.state]? = some .broken_promise := by
  rcases h with h | h
  · simp [function_wrapper.destroy, packaged_task.destroy, h,
      List.getElem?_set_self (lt_of_getElem?_some h)]
  · exact destroy_keeps_broken _ sh h

theorem foldl_destroy_keeps (q : List (function_wrapper V E)) (sh : List (shared_state V E))
    {c : Nat} (h : sh[c]? = some .broken_promise) :
    (q.foldl (fun st t => t.destroy st) sh)[c]? = some .broken_promise := by
  induction q generalizing sh with
  | nil => exact h
  | cons t q ih => exact ih _ (destroy_keeps_broken t sh h)

theorem foldl_destroy_breaks (q : List (function_wrapper V E)) (sh : List (shared_state V E))
    {p : packaged_task V E} (hp : (⟨.packaged p⟩ : function_wrapper V E) ∈ q)
    (h : sh[p.state]? = some .not_ready ∨ sh[p.state]? = some .broken_promise) :
    (q.foldl (fun st t => t.destroy st) sh)[p.state]? = some .broken_promise := by
  induction q generalizing sh with
  | nil => cases hp
  | cons t q ih =>
    rcases List.mem_cons.1 hp with rfl | hq
    · exact foldl_destroy_keeps q _ (destroy_self p sh h)
    · exact ih _ hq (destroy_pending t sh h)

/-- C5 at the failing input: a pool of three workers built in storage whose
`closed_` byte is set comes back with the flag set although `close` never ran,
and the first idle-poll step of a worker terminates it. -/
theorem constructor_leaves_flag_unassigned :
    thread_pool.thread_pool true 3 (fun _ => true)
        = Constructed.pool (started true 3 : System Nat Nat)
      ∧ (started true 3 : System Nat Nat).closed_ = true
      ∧ (started true 3 : System Nat Nat).history = []
      ∧ (step (.worker 0) (started true 3 : System Nat Nat)).threads_
          = [.terminated, .idle_poll, .idle_poll]
      ∧ (step (.worker 0) (started true 3 : System Nat Nat)).history = [] :=
  ⟨rfl, rfl, rfl, rfl, rfl⟩

/-- C6 at the failing input: two workers asked for, the second thread fails to
start.  When the constructor rethrows, the flag is set but the first thread has
not been joined, and destroying `threads_` with that joinable handle in it
calls `std::terminate`. -/
theorem constructor_failure_skips_join :
    thread_pool.thread_pool false 2 (fun i => i == 0)
        = Constructed.failure
            ({ threads_ := [.idle_poll], work_queue_ := [], closed_ := true, shared := [],
               terminate_called := false, history := [.closed] } : System Nat Nat)
      ∧ (thread_pool.destroy_members
            ({ threads_ := [.idle_poll], work_queue_ := [], closed_ := true, shared := [],
               terminate_called := false, history := [.closed] } : System Nat Nat)).terminate_called
          = true :=
  ⟨rfl, rfl⟩

/-- C7, counterexample: one worker, one task queued when the destructor sets
the flag.  The task is never invoked, yet when the destructor is done its
future is ready: it holds a broken promise. -/
theorem abandoned_future_becomes_ready :
    (thread_pool.close (run [.submit (fun _ => .returns 7)]
        (started false 1 : System Nat Nat))).closed_ = true
      ∧ (thread_pool.close (run [.submit (fun _ => .returns 7)]
          (started false 1 : System Nat Nat))).shared = [.not_ready]
      ∧ (thread_pool.close (run [.submit (fun _ => .returns 7)]
          (started false 1 : System Nat Nat))).work_queue_.length = 1
      ∧ ∃ s1 : System Nat Nat,
          thread_pool.destructor [0] (run [.submit (fun _ => .returns 7)]
            (started false 1 : System Nat Nat)) = some s1
          ∧ s1.shared = [.broken_promise] ∧ invokedBy s1.history = []
          ∧ s1.terminate_called = false :=
  ⟨rfl, rfl, rfl, _, rfl, rfl, rfl, rfl⟩

theorem getElem?_set_joined {l : List (thread V E)} {w k : Nat} {x : thread V E}
    (hx : x ≠ .joined) (h : (l.set w x)[k]? = some .joined) : l[k]? = some .joined := by
  by_cases hwk : w = k
  · subst hwk
    rw [List.getElem?_set] at h
    simp only [if_true] at h
    split at h
    · exact absurd (Option.some.inj h) hx
    · exact absurd h (by simp)
  · rwa [List.getElem?_set_ne hwk] at h

theorem Fresh.fresh_step {s : System V E} (h : Fresh s) (a : Action V E) : Fresh (step a s) := by
  unfold step
  split
  · exact h
  · cases a with
    | submit f =>
      refine ⟨h.1, fun i hi => ?_⟩
      simp only [thread_pool.submit, List.mem_append, List.mem_singleton] at hi
      rcases hi with hi | hi
      · exact h.2 i hi
      · cases hi
    | worker w =>
      simp only [thread_pool.worker_thread]
      split
      · unfold thread_pool.idle_poll
        split
        · exact ⟨fun k hk => h.1 k (getElem?_set_joined (by simp) hk), h.2⟩
        · split
          · refine ⟨fun k hk => h.1 k (getElem?_set_joined (by simp) hk), fun i hi => ?_⟩
            simp only [List.mem_append, List.mem_singleton] at hi
            rcases hi with hi | hi
            · exact h.2 i hi
            · cases hi
          · exact h
      · unfold thread_pool.execute
        split
        · refine ⟨fun k hk => h.1 k (getElem?_set_joined (by simp) hk), fun i hi => ?_⟩
          simp only [List.mem_append, List.mem_singleton] at hi
          rcases hi with hi | hi
          · exact h.2 i hi
          · cases hi
        · refine ⟨h.1, fun i hi => ?_⟩
          simp only [List.mem_append, List.mem_singleton] at hi
          rcases hi with hi | hi
          · exact h.2 i hi
          · cases hi
        · exact h
      · exact h
    | close =>
      refine ⟨h.1, fun i hi => ?_⟩
      simp only [thread_pool.close, List.mem_append, List.mem_singleton] at hi
      rcases hi with hi | hi
      · exact h.2 i hi
      · cases hi

theorem Fresh.fresh_run {s : System V E} (h : Fresh s) (acts : List (Action V E)) :
    Fresh (run acts s) := by
  induction acts generalizing s with
  | nil => exact h
  | cons a acts ih => exact ih (h.fresh_step a)

theorem Fresh.fresh_start (garbage : Bool) (n : Nat) : Fresh (started garbage n : System V E) := by
  refine ⟨fun k hk => ?_, fun i hi => ?_⟩
  · simp only [started, List.getElem?_replicate] at hk
    split at hk <;> simp at hk
  · simp [started] at hi

/-- What a worker step does once the flag is set, when the wrapper the worker
may hold has a call that ends. -/
theorem closed_worker_step {s : System V E} (h : Inv s) (hcl : s.closed_ = true) (w : Nat)
    (hret : ∀ (t : function_wrapper V E), s.threads_[w]? = some (.executing t) → t.terminates) :
    (step (.worker w) s = s ∧ s.threads_[w]? ≠ some .idle_poll
        ∧ ∀ (t : function_wrapper V E), s.threads_[w]? ≠ some (.executing t))
      ∨ (s.threads_[w]? = some .idle_poll
          ∧ step (.worker w) s = { s with threads_ := s.threads_.set w .terminated })
      ∨ ∃ p : packaged_task V E, s.threads_[w]? = some (.executing ⟨.packaged p⟩)
          ∧ step (.worker w) s =
            { s with
              shared := s.shared.set p.state (resolve (p.fn ()))
              threads_ := s.threads_.set w .idle_poll
              history := s.history ++ [.invoked w ⟨.packaged p⟩] } := by
  rw [step_worker w h.alive]
  cases hw : s.threads_[w]? with
  | none => exact Or.inl ⟨by simp [thread_pool.worker_thread, hw], by simp, by simp⟩
  | some x =>
    cases x with
    | idle_poll =>
      refine Or.inr (Or.inl ⟨rfl, ?_⟩)
      rw [worker_thread_idle hw]
      simp [thread_pool.idle_poll, hcl]
    | executing t =>
      obtain ⟨_, p, rfl, hs⟩ := h.held w t hw
      have hd : p.fn () ≠ .diverges := hret _ hw
      refine Or.inr (Or.inr ⟨p, rfl, ?_⟩)
      rw [worker_thread_executing hw, execute_packaged hs hd]
    | terminated => exact Or.inl ⟨by simp [thread_pool.worker_thread, hw], by simp, by simp⟩
    | joined => exact Or.inl ⟨by simp [thread_pool.worker_thread, hw], by simp, by simp⟩

theorem getElem?_set_iff_joined {l : List (thread V E)} {w k : Nat} {x : thread V E}
    (hx : x ≠ .joined) (hw : l[w]? ≠ some .joined) :
    (l.set w x)[k]? = some .joined ↔ l[k]? = some .joined := by
  constructor
  · exact getElem?_set_joined hx
  · intro h
    have hwk : w ≠ k := by
      rintro rfl
      exact hw h
    rwa [List.getElem?_set_ne hwk]

/-- One scheduled worker step during shutdown. -/
theorem Winding.winding_step {w : Nat} {rest : List Nat} {s : System V E}
    (h : Winding (w :: rest) s) :
    Winding rest (step (.worker w) s)
      ∧ (step (.worker w) s).work_queue_ = s.work_queue_
      ∧ (step (.worker w) s).threads_.length = s.threads_.length
      ∧ (∀ (k : Nat), (step (.worker w) s).threads_[k]? = some .joined
          ↔ s.threads_[k]? = some .joined)
      ∧ ∃ evs, (step (.worker w) s).history = s.history ++ evs := by
  have hinv := h.inv.step_act (.worker w)
  have hcl := step_closed (.worker w) h.closed
  have hcount : ∀ (k : Nat), k ≠ w → List.count k (w :: rest) = List.count k rest :=
    fun k hk => List.count_cons_of_ne hk rest
  rcases closed_worker_step h.inv h.closed w (fun t ht => (h.exec w t ht).1) with
    ⟨heq, hni, hne⟩ | ⟨hw, heq⟩ | ⟨p, hw, heq⟩
  · rw [heq]
    refine ⟨⟨h.inv, h.closed, ?_, ?_⟩, rfl, rfl, fun k => Iff.rfl, [], by simp⟩
    · intro k hk
      have hkw : k ≠ w := by
        rintro rfl
        exact hni hk
      have := h.idle k hk
      rwa [hcount k hkw] at this
    · intro k t hk
      have hkw : k ≠ w := by
        rintro rfl
        exact hne t hk
      have := h.exec k t hk
      rwa [hcount k hkw] at this
  · have hinv1 := hinv
    have hcl1 := hcl
    rw [heq] at hinv1 hcl1 ⊢
    refine ⟨⟨hinv1, hcl1, ?_, ?_⟩, rfl, by simp, ?_, [], by simp⟩
    · intro k hk
      by_cases hkw : w = k
      · subst hkw
        simp [List.getElem?_set_self (lt_of_getElem?_some hw)] at hk
      · simp only [List.getElem?_set_ne hkw] at hk
        have := h.idle k hk
        rwa [hcount k (Ne.symm hkw)] at this
    · intro k t hk
      obtain ⟨hkw, hk1⟩ := getElem?_set_executing (by simp) hk
      have := h.exec k t hk1
      rwa [hcount k (Ne.symm hkw)] at this
    · intro k
      exact getElem?_set_iff_joined (by simp) (by simp [hw])
  · have hinv1 := hinv
    have hcl1 := hcl
    rw [heq] at hinv1 hcl1 ⊢
    refine ⟨⟨hinv1, hcl1, ?_, ?_⟩, rfl, by simp, ?_, _, rfl⟩
    · intro k hk
      by_cases hkw : w = k
      · subst hkw
        have := (h.exec w _ hw).2
        rw [List.count_cons_self] at this
        omega
      · simp only [List.getElem?_set_ne hkw] at hk
        have := h.idle k hk
        rwa [hcount k (Ne.symm hkw)] at this
    · intro k t hk
      obtain ⟨hkw, hk1⟩ := getElem?_set_executing (by simp) hk
      have := h.exec k t hk1
      rwa [hcount k (Ne.symm hkw)] at this
    · intro k
      exact getElem?_set_iff_joined (by simp) (by simp [hw])

/-- Joining a thread that has returned keeps the invariant. -/
theorem Inv.mark_joined {s : System V E} (h : Inv s) {i : Nat}
    (hi : s.threads_[i]? = some .terminated) :
    Inv { s with threads_ := s.threads_.set i .joined,
                 history := s.history ++ [.joined i] } where
  alive := h.alive
  chans := by simpa [submittedOf_append, submittedOf] using h.chans
  fifo := by
    simpa [submittedOf_append, dequeuedOf_append, dequeuedBy_append, submittedOf, dequeuedOf,
      dequeuedBy] using h.fifo
  held := by
    intro w t hw
    obtain ⟨_, hw1⟩ := getElem?_set_executing (by simp) hw
    simpa [dequeuedBy_append, dequeuedBy] using h.held w t hw1
  queued := h.queued
  done := by
    simpa [dequeuedBy_append, dequeuedBy, invokedBy_append, invokedBy] using h.done
  owner := by
    intro w t hw
    have hw1 : (w, t) ∈ dequeuedBy s.history := by
      simpa [dequeuedBy_append, dequeuedBy] using hw
    rcases h.owner w t hw1 with h1 | h1
    · left
      have hne : i ≠ w := by
        rintro rfl
        rw [hi] at h1
        cases h1
      simpa [List.getElem?_set_ne hne] using h1
    · right
      simpa [invokedBy_append, invokedBy] using h1
  once := by simpa [invokedOf_append, invokedBy_append, invokedOf, invokedBy] using h.once
  live := by
    intro w hw
    by_cases hiw : i = w
    · subst hiw
      simp [List.getElem?_set_self (lt_of_getElem?_some hi)] at hw
    · rw [List.getElem?_set_ne hiw] at hw
      exact h.live w hw
  workers := by
    intro w t hw
    have hw1 : (w, t) ∈ dequeuedBy s.history := by
      simpa [dequeuedBy_append, dequeuedBy] using hw
    simpa using h.workers w t hw1

theorem Winding.winding_mark {sched : List Nat} {s : System V E} (h : Winding sched s)
    {i : Nat} (hi : s.threads_[i]? = some .terminated) :
    Winding sched { s with threads_ := s.threads_.set i .joined,
                           history := s.history ++ [.joined i] } where
  inv := h.inv.mark_joined hi
  closed := h.closed
  idle := by
    intro w hw
    by_cases hiw : i = w
    · subst hiw
      simp [List.getElem?_set_self (lt_of_getElem?_some hi)] at hw
    · simp only [List.getElem?_set_ne hiw] at hw
      exact h.idle w hw
  exec := by
    intro w t hw
    obtain ⟨_, hw1⟩ := getElem?_set_executing (by simp) hw
    exact h.exec w t hw1

theorem join_thread_terminated (i : Nat) (sched : List Nat) {s : System V E}
    (hi : s.threads_[i]? = some .terminated) :
    thread_pool.join_thread i sched s =
      some (sched, { s with threads_ := s.threads_.set i .joined,
                            history := s.history ++ [.joined i] }) := by
  cases sched <;> simp [thread_pool.join_thread, hi]

theorem join_thread_waiting (i w : Nat) (rest : List Nat) {s : System V E}
    (hi : s.threads_[i]? ≠ some .terminated) :
    thread_pool.join_thread i (w :: rest) s
      = thread_pool.join_thread i rest (step (.worker w) s) := by
  simp only [thread_pool.join_thread]

/-- During shutdown `t.join()` returns within the schedule. -/
theorem join_thread_ok (i : Nat) (sched : List Nat) (s : System V E)
    (h : Winding sched s) (hlt : i < s.threads_.length)
    (hnj : s.threads_[i]? ≠ some .joined) :
    ∃ rest s1, thread_pool.join_thread i sched s = some (rest, s1)
      ∧ Winding rest s1
      ∧ s1.work_queue_ = s.work_queue_
      ∧ s1.threads_.length = s.threads_.length
      ∧ s1.threads_[i]? = some .joined
      ∧ (∀ (k : Nat), k ≠ i →
          (s1.threads_[k]? = some .joined ↔ s.threads_[k]? = some .joined))
      ∧ (∃ evs, s1.history = s.history ++ evs)
      ∧ Event.joined i ∈ s1.history := by
  induction sched generalizing s with
  | nil =>
    by_cases ht : s.threads_[i]? = some .terminated
    · refine ⟨[], _, join_thread_terminated i [] ht, h.winding_mark ht, rfl, by simp,
        by simp [List.getElem?_set_self hlt], ?_, ⟨_, rfl⟩, by simp⟩
      intro k hk
      simp [List.getElem?_set_ne (Ne.symm hk)]
    · exfalso
      cases hx : s.threads_[i]? with
      | none => exact absurd (List.getElem?_eq_none_iff.1 hx) (by omega)
      | some x =>
        cases x with
        | idle_poll => simpa using h.idle i hx
        | executing t => simpa using (h.exec i t hx).2
        | terminated => exact ht hx
        | joined => exact hnj hx
  | cons w rest ih =>
    by_cases ht : s.threads_[i]? = some .terminated
    · refine ⟨w :: rest, _, join_thread_terminated i _ ht, h.winding_mark ht, rfl, by simp,
        by simp [List.getElem?_set_self hlt], ?_, ⟨_, rfl⟩, by simp⟩
      intro k hk
      simp [List.getElem?_set_ne (Ne.symm hk)]
    · obtain ⟨hw1, hq, hlen, hj, evs, hev⟩ := h.winding_step
      obtain ⟨rest1, s1, h1, h2, h3, h4, h5, h6, ⟨evs1, h7⟩, h8⟩ :=
        ih (step (.worker w) s) hw1 (hlen ▸ hlt) (fun hx => hnj ((hj i).1 hx))
      refine ⟨rest1, s1, ?_, h2, h3.trans hq, h4.trans hlen, h5, ?_, ⟨evs ++ evs1, ?_⟩, h8⟩
      · rw [join_thread_waiting i w rest ht]
        exact h1
      · intro k hk
        exact (h6 k hk).trans (hj k)
      · rw [h7, hev, List.append_assoc]

/-- During shutdown the loop of `join` returns within the schedule, with every
thread it was asked to join joined. -/
theorem join_loop_ok (idxs sched : List Nat) (s : System V E) (hn : idxs.Nodup)
    (hidx : ∀ (i : Nat), i ∈ idxs → i < s.threads_.length ∧ s.threads_[i]? ≠ some .joined)
    (h : Winding sched s) :
    ∃ rest s1, thread_pool.join_loop idxs sched s = some (rest, s1)
      ∧ Winding rest s1
      ∧ s1.work_queue_ = s.work_queue_
      ∧ s1.threads_.length = s.threads_.length
      ∧ (∀ (i : Nat), i ∈ idxs → s1.threads_[i]? = some .joined ∧ Event.joined i ∈ s1.history)
      ∧ (∀ (k : Nat), k ∉ idxs →
          (s1.threads_[k]? = some .joined ↔ s.threads_[k]? = some .joined))
      ∧ ∃ evs, s1.history = s.history ++ evs := by
  induction idxs generalizing sched s with
  | nil => exact ⟨sched, s, rfl, h, rfl, rfl, by simp, fun _ _ => Iff.rfl, [], by simp⟩
  | cons i more ih =>
    obtain ⟨hi, hmore⟩ := List.nodup_cons.1 hn
    obtain ⟨hlt, hnj⟩ := hidx i (List.mem_cons_self _ _)
    obtain ⟨rest1, s1, h1, h2, h3, h4, h5, h6, ⟨evs1, h7⟩, h8⟩ :=
      join_thread_ok i sched s h hlt hnj
    have hidx1 : ∀ (j : Nat), j ∈ more →
        j < s1.threads_.length ∧ s1.threads_[j]? ≠ some .joined := by
      intro j hj
      obtain ⟨hjl, hjn⟩ := hidx j (List.mem_cons_of_mem _ hj)
      have hji : j ≠ i := by
        rintro rfl
        exact hi hj
      exact ⟨h4 ▸ hjl, fun hx => hjn ((h6 j hji).1 hx)⟩
    obtain ⟨rest2, s2, g1, g2, g3, g4, g5, g6, ⟨evs2, g7⟩⟩ := ih rest1 s1 hmore hidx1 h2
    refine ⟨rest2, s2, ?_, g2, g3.trans h3, g4.trans h4, ?_, ?_, ⟨evs1 ++ evs2, ?_⟩⟩
    · simp only [thread_pool.join_loop, h1]
      exact g1
    · intro j hj
      rcases List.mem_cons.1 hj with rfl | hj
      · refine ⟨(g6 j hi).2 h5, ?_⟩
        rw [g7]
        exact List.mem_append_left _ h8
      · exact g5 j hj
    · intro k hk
      have hki : k ≠ i := fun hx => hk (hx ▸ List.mem_cons_self _ _)
      have hkm : k ∉ more := fun hx => hk (List.mem_cons_of_mem _ hx)
      exact (g6 k hkm).trans (h6 k hki)
    · rw [g7, h7, List.append_assoc]

theorem worker_step_queue_closed (w : Nat) {s : System V E} (h : s.closed_ = true) :
    (step (.worker w) s).work_queue_ = s.work_queue_ := by
  unfold step
  split
  · rfl
  · simp only [thread_pool.worker_thread]
    split
    · simp [thread_pool.idle_poll, h]
    · unfold thread_pool.execute
      split <;> rfl
    · rfl

/-- Whenever `t.join()` returns during shutdown, the invariant still holds and
the queue is as it was. -/
theorem join_thread_keeps (i : Nat) (sched : List Nat) (s : System V E)
    {rest : List Nat} {s1 : System V E} (h : Inv s) (hcl : s.closed_ = true)
    (hj : thread_pool.join_thread i sched s = some (rest, s1)) :
    Inv s1 ∧ s1.closed_ = true ∧ s1.work_queue_ = s.work_queue_ := by
  induction sched generalizing s with
  | nil =>
    by_cases ht : s.threads_[i]? = some .terminated
    · rw [join_thread_terminated i [] ht] at hj
      cases hj
      exact ⟨h.mark_joined ht, hcl, rfl⟩
    · simp only [thread_pool.join_thread] at hj
      cases hj
  | cons w more ih =>
    by_cases ht : s.threads_[i]? = some .terminated
    · rw [join_thread_terminated i _ ht] at hj
      cases hj
      exact ⟨h.mark_joined ht, hcl, rfl⟩
    · rw [join_thread_waiting i w more ht] at hj
      obtain ⟨h1, h2, h3⟩ := ih _ (h.step_act (.worker w)) (step_closed (.worker w) hcl) hj
      exact ⟨h1, h2, h3.trans (worker_step_queue_closed w hcl)⟩

theorem join_loop_keeps (idxs sched : List Nat) (s : System V E)
    {rest : List Nat} {s1 : System V E} (h : Inv s) (hcl : s.closed_ = true)
    (hj : thread_pool.join_loop idxs sched s = some (rest, s1)) :
    Inv s1 ∧ s1.closed_ = true ∧ s1.work_queue_ = s.work_queue_ := by
  induction idxs generalizing sched s with
  | nil =>
    simp only [thread_pool.join_loop, Option.some.injEq, Prod.mk.injEq] at hj
    obtain ⟨_, rfl⟩ := hj
    exact ⟨h, hcl, rfl⟩
  | cons i more ih =>
    simp only [thread_pool.join_loop] at hj
    split at hj
    · rename_i sched1 s2 hj1
      obtain ⟨h1, h2, h3⟩ := join_thread_keeps i sched s h hcl hj1
      obtain ⟨g1, g2, g3⟩ := ih sched1 s2 h1 h2 hj
      exact ⟨g1, g2, g3.trans h3⟩
    · cases hj

/-- A wrapper in the queue has been neither dequeued nor invoked, and its
shared state is not ready. -/
theorem Inv.queued_untouched {s : System V E} (h : Inv s) {t : function_wrapper V E}
    (ht : t ∈ s.work_queue_) :
    t ∉ dequeuedOf s.history ∧ t ∉ invokedOf s.history
      ∧ ∃ p : packaged_task V E, t = ⟨.packaged p⟩ ∧ s.shared[p.state]? = some .not_ready := by
  have hnd : t ∉ dequeuedOf s.history := by
    have hn := h.submitted_nodup
    rw [← h.fifo] at hn
    exact fun hm => List.disjoint_left.1 (List.nodup_append.1 hn).2.2 hm ht
  refine ⟨hnd, ?_, h.queued t ht⟩
  intro hm
  obtain ⟨w, hw⟩ := mem_invokedOf.1 hm
  exact hnd (mem_dequeuedOf.2 ⟨w, (h.done w t hw).1⟩)

/-- C7, as amended: with the flag set, an idle-poll step only moves the worker
to terminated (queue, shared states and log untouched); whatever later steps
are taken, the queue only grows at the back by the wrappers submitted
meanwhile and nothing more is dequeued; every wrapper in the queue has not been
dequeued or invoked and its shared state is still not ready; and whenever the
destructor then returns, the wrapper has still not been invoked and its shared
state has been made ready by the destruction of the queue, holding a broken
promise. -/
theorem shutdown_abandons_queue (garbage : Bool) (n : Nat) (start_ok : Nat → Bool)
    (s0 : System V E) (acts more : List (Action V E))
    (hc : thread_pool.thread_pool garbage n start_ok = Constructed.pool s0)
    (hclosed : (run acts s0).closed_ = true) :
    (∀ (w : Nat), (run acts s0).threads_[w]? = some .idle_poll →
        step (.worker w) (run acts s0) =
          { run acts s0 with threads_ := (run acts s0).threads_.set w .terminated })
      ∧ (∃ new, (run more (run acts s0)).work_queue_ = (run acts s0).work_queue_ ++ new
          ∧ submittedOf (run more (run acts s0)).history
              = submittedOf (run acts s0).history ++ new)
      ∧ dequeuedBy (run more (run acts s0)).history = dequeuedBy (run acts s0).history
      ∧ ∀ (t : function_wrapper V E), t ∈ (run more (run acts s0)).work_queue_ →
          t ∉ dequeuedOf (run more (run acts s0)).history
            ∧ t ∉ invokedOf (run more (run acts s0)).history
            ∧ ∃ p : packaged_task V E, t = ⟨.packaged p⟩
                ∧ (run more (run acts s0)).shared[p.state]? = some .not_ready
                ∧ ∀ (sched : List Nat) (s1 : System V E),
                    thread_pool.destructor sched (run more (run acts s0)) = some s1 →
                    s1.shared[p.state]? = some .broken_promise
                      ∧ t ∉ invokedOf s1.history := by
  have h := Inv.reachable hc acts
  have h1 := h.run_acts more
  obtain ⟨new, hq, hsub, hdq⟩ := run_queue_closed more hclosed
  refine ⟨?_, ⟨new, hq, hsub⟩, hdq, ?_⟩
  · intro w hw
    rw [step_worker w h.alive, worker_thread_idle hw]
    simp [thread_pool.idle_poll, hclosed]
  · intro t ht
    obtain ⟨hnd, hni, p, rfl, hs⟩ := h1.queued_untouched ht
    refine ⟨hnd, hni, p, rfl, hs, ?_⟩
    intro sched s1 hd
    simp only [thread_pool.destructor] at hd
    split at hd
    · rename_i rest s2 hj
      cases hd
      obtain ⟨g1, _, g3⟩ := join_loop_keeps _ sched _ h1.close rfl hj
      have ht2 : (⟨.packaged p⟩ : function_wrapper V E) ∈ s2.work_queue_ := by
        rw [g3]
        exact ht
      obtain ⟨_, hni2, p2, hp2, hs2⟩ := g1.queued_untouched ht2
      cases hp2
      exact ⟨foldl_destroy_breaks _ _ ht2 (Or.inl hs2), hni2⟩
    · cases hd

/-- C8 (destruction completes): from any reachable state, with any number of
wrappers queued, provided the calls of the wrappers that workers hold end: once
`close` has run, two steps of a worker (finish the held task, then one
idle-poll) leave it terminated; and under any schedule that gives every worker
two turns the destructor returns: `join` joins every thread, the queue is
as it was, every join is logged after the `close` of the destructor, and
`std::terminate` is not called. -/
theorem destruction_completes (garbage : Bool) (n : Nat) (start_ok : Nat → Bool)
    (s0 : System V E) (acts : List (Action V E)) (sched : List Nat)
    (hc : thread_pool.thread_pool garbage n start_ok = Constructed.pool s0)
    (hret : ∀ (w : Nat) (t : function_wrapper V E),
      (run acts s0).threads_[w]? = some (.executing t) → t.terminates)
    (hsched : ∀ (w : Nat), w < n → 2 ≤ sched.count w) :
    (∀ (w : Nat), w < n →
        (step (.worker w) (step (.worker w)
          (thread_pool.close (run acts s0)))).threads_[w]? = some .terminated)
      ∧ ∃ rest s2, thread_pool.join sched (thread_pool.close (run acts s0)) = some (rest, s2)
          ∧ (∀ (i : Nat), i < n → s2.threads_[i]? = some .joined)
          ∧ s2.threads_.length = n
          ∧ s2.work_queue_ = (run acts s0).work_queue_
          ∧ s2.closed_ = true
          ∧ s2.terminate_called = false
          ∧ (∃ evs, s2.history = (run acts s0).history ++ Event.closed :: evs)
          ∧ (∀ (i : Nat), Event.joined i ∉ (run acts s0).history)
          ∧ (∀ (i : Nat), i < n → Event.joined i ∈ s2.history)
          ∧ thread_pool.destructor sched (run acts s0)
              = some (thread_pool.destroy_members s2)
          ∧ (thread_pool.destroy_members s2).terminate_called = false := by
  have hI := (Inv.reachable hc acts).close
  have hlen : (thread_pool.close (run acts s0)).threads_.length = n :=
    reachable_length hc acts
  have hfresh : Fresh (run acts s0) := by
    rw [constructed_eq hc]
    exact (Fresh.fresh_start garbage n).fresh_run acts
  have hcl : (thread_pool.close (run acts s0)).closed_ = true := rfl
  have hret1 : ∀ (w : Nat) (t : function_wrapper V E),
      (thread_pool.close (run acts s0)).threads_[w]? = some (.executing t) → t.terminates :=
    hret
  have hwind : Winding sched (thread_pool.close (run acts s0)) :=
    { inv := hI
      closed := rfl
      idle := by
        intro w hw
        have := hsched w (hlen ▸ lt_of_getElem?_some hw)
        omega
      exec := by
        intro w t hw
        exact ⟨hret1 w t hw, hsched w (hlen ▸ lt_of_getElem?_some hw)⟩ }
  constructor
  · intro w hw
    have hwl : w < (thread_pool.close (run acts s0)).threads_.length := hlen ▸ hw
    rcases closed_worker_step hI hcl w (hret1 w) with ⟨heq, hni, hne⟩ | ⟨hw1, heq⟩ | ⟨p, hw1, heq⟩
    · rw [heq, heq]
      cases hx : (thread_pool.close (run acts s0)).threads_[w]? with
      | none => exact absurd (List.getElem?_eq_none_iff.1 hx) (by omega)
      | some x =>
        cases x with
        | idle_poll => exact absurd hx hni
        | executing t => exact absurd hx (hne t)
        | terminated => rfl
        | joined => exact absurd hx (hfresh.1 w)
    · rw [heq]
      simp [step, hI.alive, thread_pool.worker_thread, List.getElem?_set_self hwl]
    · rw [heq]
      simp [step, hI.alive, thread_pool.worker_thread, thread_pool.idle_poll,
        List.getElem?_set_self hwl, hcl]
  · obtain ⟨rest, s2, h1, h2, h3, h4, h5, _, ⟨evs, h7⟩⟩ :=
      join_loop_ok (List.range (thread_pool.close (run acts s0)).threads_.length) sched
        (thread_pool.close (run acts s0)) (List.nodup_range _)
        (fun i hi => ⟨List.mem_range.1 hi, hfresh.1 i⟩) hwind
    have hall : ∀ (i : Nat), i < n → s2.threads_[i]? = some .joined := fun i hi =>
      (h5 i (List.mem_range.2 (hlen.symm ▸ hi))).1
    have hany : s2.threads_.any thread.joinable = false := by
      rw [List.any_eq_false]
      intro x hx
      obtain ⟨k, hk⟩ := List.mem_iff_getElem?.1 hx
      have hkn : k < n := by
        have := lt_of_getElem?_some hk
        omega
      rw [hall k hkn] at hk
      cases hk
      simp [thread.joinable]
    refine ⟨rest, s2, h1, hall, h4.trans hlen, h3, h2.closed, h2.inv.alive,
      ⟨evs, by rw [h7]; simp [thread_pool.close]⟩, hfresh.2, ?_, ?_, ?_⟩
    · exact fun i hi => (h5 i (List.mem_range.2 (hlen.symm ▸ hi))).2
    · have hj : thread_pool.join sched (thread_pool.close (run acts s0)) = some (rest, s2) := h1
      simp only [thread_pool.destructor, hj]
    · simp [thread_pool.destroy_members, h2.inv.alive, hany]

theorem Inv.held_submitted {s : System V E} (h : Inv s) {w : Nat} {t : function_wrapper V E}
    (hw : s.threads_[w]? = some (.executing t)) : t ∈ submittedOf s.history := by
  rw [← h.fifo]
  exact List.mem_append_left _ (mem_dequeuedOf.2 ⟨w, (h.held w t hw).1⟩)

/-- What a worker step does in a running pool. -/
theorem running_worker_step {s : System V E} (h : Running s) (w : Nat) :
    (step (.worker w) s = s
        ∧ (s.threads_[w]? = some .idle_poll → s.work_queue_ = [])
        ∧ ∀ (t : function_wrapper V E), s.threads_[w]? ≠ some (.executing t))
      ∨ (∃ t rest, s.threads_[w]? = some .idle_poll ∧ s.work_queue_ = t :: rest
          ∧ step (.worker w) s =
            { s with
              work_queue_ := rest
              threads_ := s.threads_.set w (.executing t)
              history := s.history ++ [.dequeued w t] })
      ∨ ∃ p : packaged_task V E, s.threads_[w]? = some (.executing ⟨.packaged p⟩)
          ∧ step (.worker w) s =
            { s with
              shared := s.shared.set p.state (resolve (p.fn ()))
              threads_ := s.threads_.set w .idle_poll
              history := s.history ++ [.invoked w ⟨.packaged p⟩] } := by
  rw [step_worker w h.inv.alive]
  cases hw : s.threads_[w]? with
  | none => exact Or.inl ⟨by simp [thread_pool.worker_thread, hw], by simp, by simp⟩
  | some x =>
    cases x with
    | idle_poll =>
      rw [worker_thread_idle hw]
      cases hq : s.work_queue_ with
      | nil =>
        exact Or.inl ⟨by simp [thread_pool.idle_poll, h.opened, hq], fun _ => rfl, by simp⟩
      | cons t rest =>
        exact Or.inr (Or.inl ⟨t, rest, rfl, rfl, by simp [thread_pool.idle_poll, h.opened, hq]⟩)
    | executing t =>
      obtain ⟨_, p, rfl, hs⟩ := h.inv.held w t hw
      have hd : p.fn () ≠ .diverges := h.term _ (h.inv.held_submitted hw)
      refine Or.inr (Or.inr ⟨p, rfl, ?_⟩)
      rw [worker_thread_executing hw, execute_packaged hs hd]
    | terminated => exact Or.inl ⟨by simp [thread_pool.worker_thread, hw], by simp, by simp⟩
    | joined => exact Or.inl ⟨by simp [thread_pool.worker_thread, hw], by simp, by simp⟩

theorem Running.running_step {s : System V E} (h : Running s) (w : Nat) :
    Running (step (.worker w) s) := by
  have hinv := h.inv.step_act (.worker w)
  rcases running_worker_step h w with ⟨heq, _, _⟩ | ⟨t, rest, hw, hq, heq⟩ | ⟨p, hw, heq⟩
  · rw [heq]
    exact h
  · rw [heq] at hinv ⊢
    exact
      { inv := hinv
        opened := h.opened
        term := by
          intro t1 ht1
          exact h.term t1 (by simpa [submittedOf_append, submittedOf] using ht1)
        unjoined := fun k hk => h.unjoined k (getElem?_set_joined (by simp) hk) }
  · rw [heq] at hinv ⊢
    exact
      { inv := hinv
        opened := h.opened
        term := by
          intro t1 ht1
          exact h.term t1 (by simpa [submittedOf_append, submittedOf] using ht1)
        unjoined := fun k hk => h.unjoined k (getElem?_set_joined (by simp) hk) }

theorem Running.running_sched {s : System V E} (h : Running s) (σ : Nat → Nat) (k : Nat) :
    Running (runSched σ k s) := by
  induction k with
  | zero => exact h
  | succ k ih => exact ih.running_step _

/-- A worker step of a running pool changes nothing or is one more dequeue or
invocation; it never changes what has been submitted. -/
theorem running_step_progress {s : System V E} (h : Running s) (w : Nat) :
    (step (.worker w) s = s ∨ progress (step (.worker w) s) = progress s + 1)
      ∧ submittedOf (step (.worker w) s).history = submittedOf s.history
      ∧ (step (.worker w) s).threads_.length = s.threads_.length := by
  rcases running_worker_step h w with ⟨heq, _, _⟩ | ⟨t, rest, hw, hq, heq⟩ | ⟨p, hw, heq⟩
  · rw [heq]
    exact ⟨Or.inl rfl, rfl, rfl⟩
  · rw [heq]
    refine ⟨Or.inr ?_, by simp [submittedOf_append, submittedOf], by simp⟩
    simp [progress, dequeuedBy_append, dequeuedBy, invokedBy_append, invokedBy]
    omega
  · rw [heq]
    refine ⟨Or.inr ?_, by simp [submittedOf_append, submittedOf], by simp⟩
    simp [progress, dequeuedBy_append, dequeuedBy, invokedBy_append, invokedBy]
    omega

/-- A worker that holds a wrapper, or is idle while the queue is not empty,
makes progress when it is scheduled. -/
theorem running_step_advances {s : System V E} (h : Running s) (w : Nat)
    (hw : (s.threads_[w]? = some .idle_poll ∧ s.work_queue_ ≠ [])
      ∨ ∃ t, s.threads_[w]? = some (.executing t)) :
    progress (step (.worker w) s) = progress s + 1 := by
  rcases running_worker_step h w with ⟨heq, hq, hne⟩ | ⟨t, rest, hw1, hq, heq⟩ | ⟨p, hw1, heq⟩
  · exfalso
    rcases hw with ⟨h1, h2⟩ | ⟨t, h1⟩
    · exact h2 (hq h1)
    · exact hne t h1
  · rw [heq]
    simp [progress, dequeuedBy_append, dequeuedBy, invokedBy_append, invokedBy]
    omega
  · rw [heq]
    simp [progress, dequeuedBy_append, dequeuedBy, invokedBy_append, invokedBy]
    omega

theorem sched_submitted {s : System V E} (h : Running s) (σ : Nat → Nat) (k : Nat) :
    submittedOf (runSched σ k s).history = submittedOf s.history
      ∧ (runSched σ k s).threads_.length = s.threads_.length := by
  induction k with
  | zero => exact ⟨rfl, rfl⟩
  | succ k ih =>
    have := running_step_progress (h.running_sched σ k) (σ k)
    exact ⟨this.2.1.trans ih.1, this.2.2.trans ih.2⟩

/-- The progress made never exceeds two per submitted wrapper. -/
theorem Inv.progress_le {s : System V E} (h : Inv s) :
    progress s ≤ 2 * (submittedOf s.history).length := by
  have h1 : (dequeuedBy s.history).length ≤ (submittedOf s.history).length := by
    have := congrArg List.length h.fifo
    simp only [List.length_append, dequeuedOf, List.length_map] at this
    omega
  have h2 : (invokedBy s.history).length ≤ (dequeuedBy s.history).length := by
    have hsub : invokedOf s.history ⊆ dequeuedOf s.history := by
      intro t ht
      obtain ⟨w, hw⟩ := mem_invokedOf.1 ht
      exact mem_dequeuedOf.2 ⟨w, (h.done w t hw).1⟩
    have := (List.Nodup.subperm h.once hsub).length_le
    simpa [invokedOf, dequeuedOf] using this
  unfold progress
  omega

/-- In a running pool with a worker, as long as something is queued or held a
fair schedule brings more progress. -/
theorem sched_advances {s : System V E} (h : Running s) {n : Nat} (hn : 0 < n)
    (hlen : s.threads_.length = n) {σ : Nat → Nat} (hfair : Fair n σ) (k : Nat)
    (hnd : ¬ Drained (runSched σ k s)) :
    ∃ k1, k < k1 ∧ progress (runSched σ k s) < progress (runSched σ k1 s) := by
  have hk := h.running_sched σ k
  have hklen : (runSched σ k s).threads_.length = n := (sched_submitted h σ k).2.trans hlen
  obtain ⟨w, hwn, hw⟩ : ∃ w, w < n ∧
      ((runSched σ k s).threads_[w]? = some .idle_poll ∧ (runSched σ k s).work_queue_ ≠ []
        ∨ ∃ t, (runSched σ k s).threads_[w]? = some (.executing t)) := by
    by_cases hex : ∃ (w : Nat) (t : function_wrapper V E),
        (runSched σ k s).threads_[w]? = some (.executing t)
    · obtain ⟨w, t, hw⟩ := hex
      exact ⟨w, hklen ▸ lt_of_getElem?_some hw, Or.inr ⟨t, hw⟩⟩
    · have hq : (runSched σ k s).work_queue_ ≠ [] := by
        intro hq
        exact hnd ⟨hq, fun w t hw => hex ⟨w, t, hw⟩⟩
      refine ⟨0, hn, Or.inl ⟨?_, hq⟩⟩
      cases hx : (runSched σ k s).threads_[0]? with
      | none => exact absurd (List.getElem?_eq_none_iff.1 hx) (by omega)
      | some x =>
        cases x with
        | idle_poll => rfl
        | executing t => exact absurd ⟨0, t, hx⟩ hex
        | terminated =>
          have := hk.inv.live 0 hx
          rw [hk.opened] at this
          cases this
        | joined => exact absurd hx (hk.unjoined 0)
  obtain ⟨m, hkm, hm⟩ := hfair w hwn k
  have hwait : ∀ (j : Nat),
      (∃ k1, k < k1 ∧ progress (runSched σ k s) < progress (runSched σ k1 s))
        ∨ runSched σ (k + j) s = runSched σ k s := by
    intro j
    induction j with
    | zero => exact Or.inr rfl
    | succ j ih =>
      rcases ih with ih | ih
      · exact Or.inl ih
      · rcases (running_step_progress (h.running_sched σ (k + j)) (σ (k + j))).1 with h1 | h1
        · right
          show step (.worker (σ (k + j))) (runSched σ (k + j) s) = _
          rw [h1, ih]
        · left
          refine ⟨k + j + 1, by omega, ?_⟩
          show _ < progress (step (.worker (σ (k + j))) (runSched σ (k + j) s))
          rw [h1, ih]
          omega
  rcases hwait (m - k) with h1 | h1
  · exact h1
  · have hmk : k + (m - k) = m := by omega
    rw [hmk] at h1
    refine ⟨m + 1, by omega, ?_⟩
    show _ < progress (step (.worker (σ m)) (runSched σ m s))
    rw [hm, h1, running_step_advances hk w hw]
    omega

/-- Under a fair schedule a running pool with a worker gets drained. -/
theorem sched_drains {s : System V E} (h : Running s) {n : Nat} (hn : 0 < n)
    (hlen : s.threads_.length = n) {σ : Nat → Nat} (hfair : Fair n σ) :
    ∃ k, Drained (runSched σ k s) := by
  have key : ∀ (d k : Nat),
      2 * (submittedOf s.history).length - progress (runSched σ k s) ≤ d →
      ∃ k1, Drained (runSched σ k1 s) := by
    intro d
    induction d with
    | zero =>
      intro k hd
      by_cases hdr : Drained (runSched σ k s)
      · exact ⟨k, hdr⟩
      · obtain ⟨k1, _, hlt⟩ := sched_advances h hn hlen hfair k hdr
        have hb := (h.running_sched σ k1).inv.progress_le
        rw [(sched_submitted h σ k1).1] at hb
        omega
    | succ d ih =>
      intro k hd
      by_cases hdr : Drained (runSched σ k s)
      · exact ⟨k, hdr⟩
      · obtain ⟨k1, _, hlt⟩ := sched_advances h hn hlen hfair k hdr
        have hb := (h.running_sched σ k1).inv.progress_le
        rw [(sched_submitted h σ k1).1] at hb
        exact ih k1 (by omega)
  exact key _ 0 (Nat.le_refl _)

/-- Once drained, a running pool stays as it is under worker steps. -/
theorem drained_stable {s : System V E} (h : Running s) (σ : Nat → Nat) (k : Nat)
    (hd : Drained (runSched σ k s)) (j : Nat) :
    runSched σ (k + j) s = runSched σ k s := by
  induction j with
  | zero => rfl
  | succ j ih =>
    show step (.worker (σ (k + j))) (runSched σ (k + j) s) = _
    rw [ih]
    rcases running_worker_step (h.running_sched σ k) (σ (k + j)) with
      ⟨heq, _, _⟩ | ⟨t, rest, _, hq, _⟩ | ⟨p, hw, _⟩
    · exact heq
    · rw [hd.1] at hq
      cases hq
    · exact absurd hw (hd.2 _ _)

theorem Running.running_start (n : Nat) : Running (started false n : System V E) where
  inv := Inv.at_start false n
  opened := rfl
  term := by simp [started, submittedOf]
  unjoined := (Fresh.fresh_start false n).1

theorem Running.act {s : System V E} (h : Running s) (a : Action V E)
    (ha : a ≠ .close) (hf : ∀ (f : Unit → Behaviour V E), a = .submit f → f () ≠ .diverges) :
    Running (step a s) := by
  cases a with
  | submit f =>
    have heq : step (.submit f) s = (thread_pool.submit f () s).2 := by
      simp [step, h.inv.alive]
    rw [heq]
    exact
      { inv := h.inv.submit f ()
        opened := h.opened
        term := by
          intro t ht
          simp only [thread_pool.submit, submittedOf_append, submittedOf, List.mem_append,
            List.mem_singleton] at ht
          rcases ht with ht | rfl
          · exact h.term t ht
          · exact hf f rfl
        unjoined := h.unjoined }
  | worker w => exact h.running_step w
  | close => exact absurd rfl ha

theorem Running.running_run {s : System V E} (h : Running s) (acts : List (Action V E))
    (hopen : ∀ (a : Action V E), a ∈ acts → a ≠ .close)
    (hterm : ∀ (f : Unit → Behaviour V E), Action.submit f ∈ acts → f () ≠ .diverges) :
    Running (run acts s) := by
  induction acts generalizing s with
  | nil => exact h
  | cons a acts ih =>
    refine ih (h.act a (hopen a (List.mem_cons_self _ _)) ?_)
      (fun b hb => hopen b (List.mem_cons_of_mem _ hb))
      (fun f hf => hterm f (List.mem_cons_of_mem _ hf))
    rintro f rfl
    exact hterm f (List.mem_cons_self _ _)

/-- Liveness when the flag starts unset: take a pool with at least one worker
whose `closed_` byte was clear when it was constructed and on which `close` is
never called, and any interleaving of submissions (of callables that end) and
worker steps.  Under every schedule that keeps scheduling each worker there is
a time from which on every submitted wrapper has been invoked, by a worker of
the pool, its shared state holds what its callable produced, no wrapper was
invoked twice, the queue is empty and `std::terminate` was not called. -/
theorem all_tasks_complete (n : Nat) (start_ok : Nat → Bool) (s0 : System V E)
    (acts : List (Action V E)) (σ : Nat → Nat)
    (hc : thread_pool.thread_pool false n start_ok = Constructed.pool s0)
    (hn : 0 < n)
    (hopen : ∀ (a : Action V E), a ∈ acts → a ≠ .close)
    (hterm : ∀ (f : Unit → Behaviour V E), Action.submit f ∈ acts → f () ≠ .diverges)
    (hfair : Fair n σ) :
    ∃ k, ∀ (m : Nat), k ≤ m →
      (∀ (t : function_wrapper V E), t ∈ submittedOf (run acts s0).history →
          ∃ (p : packaged_task V E) (w : Nat), t = ⟨.packaged p⟩ ∧ w < n
            ∧ p.fn () ≠ .diverges
            ∧ (runSched σ m (run acts s0)).shared[p.state]? = some (resolve (p.fn ()))
            ∧ (w, t) ∈ invokedBy (runSched σ m (run acts s0)).history)
        ∧ (invokedOf (runSched σ m (run acts s0)).history).Nodup
        ∧ (runSched σ m (run acts s0)).work_queue_ = []
        ∧ (runSched σ m (run acts s0)).terminate_called = false := by
  have hR : Running (run acts s0) := by
    rw [constructed_eq hc]
    exact (Running.running_start n).running_run acts hopen hterm
  have hlen : (run acts s0).threads_.length = n := reachable_length hc acts
  obtain ⟨k, hk⟩ := sched_drains hR hn hlen hfair
  refine ⟨k, fun m hm => ?_⟩
  have hmk : runSched σ m (run acts s0) = runSched σ k (run acts s0) := by
    have := drained_stable hR σ k hk (m - k)
    rwa [show k + (m - k) = m by omega] at this
  rw [hmk]
  have hI := (hR.running_sched σ k).inv
  have hsub := sched_submitted hR σ k
  refine ⟨?_, hI.once, hk.1, hI.alive⟩
  intro t ht
  rw [← hsub.1, ← hI.fifo, hk.1, List.append_nil] at ht
  obtain ⟨w, hw⟩ := mem_dequeuedOf.1 ht
  rcases hI.owner w t hw with h1 | h1
  · exact absurd h1 (hk.2 w t)
  · obtain ⟨_, p, hp, hs, hd⟩ := hI.done w t h1
    have hwn : w < n := by
      have := hI.workers w t hw
      omega
    exact ⟨p, w, hp, hwn, hd, hs, h1⟩

/-- With the flag set and no worker holding a wrapper, a worker step can only
terminate the worker: shared states, queue and log stay as they are. -/
theorem flagged_worker_step {s : System V E} (w : Nat) (hcl : s.closed_ = true)
    (hal : s.terminate_called = false)
    (hno : ∀ (k : Nat) (t : function_wrapper V E), s.threads_[k]? ≠ some (.executing t)) :
    (step (.worker w) s).closed_ = true
      ∧ (step (.worker w) s).terminate_called = false
      ∧ (∀ (k : Nat) (t : function_wrapper V E),
          (step (.worker w) s).threads_[k]? ≠ some (.executing t))
      ∧ (step (.worker w) s).shared = s.shared
      ∧ (step (.worker w) s).work_queue_ = s.work_queue_
      ∧ (step (.worker w) s).history = s.history := by
  rw [step_worker w hal]
  cases hw : s.threads_[w]? with
  | none =>
    have : thread_pool.worker_thread w s = s := by simp [thread_pool.worker_thread, hw]
    rw [this]
    exact ⟨hcl, hal, hno, rfl, rfl, rfl⟩
  | some x =>
    cases x with
    | idle_poll =>
      have : thread_pool.worker_thread w s
          = { s with threads_ := s.threads_.set w .terminated } := by
        rw [worker_thread_idle hw]
        simp [thread_pool.idle_poll, hcl]
      rw [this]
      exact ⟨hcl, hal, fun k t hk => hno k t (getElem?_set_executing (by simp) hk).2,
        rfl, rfl, rfl⟩
    | executing t => exact absurd hw (hno w t)
    | terminated =>
      have : thread_pool.worker_thread w s = s := by simp [thread_pool.worker_thread, hw]
      rw [this]
      exact ⟨hcl, hal, hno, rfl, rfl, rfl⟩
    | joined =>
      have : thread_pool.worker_thread w s = s := by simp [thread_pool.worker_thread, hw]
      rw [this]
      exact ⟨hcl, hal, hno, rfl, rfl, rfl⟩

theorem flagged_sched {s : System V E} (σ : Nat → Nat) (m : Nat) (hcl : s.closed_ = true)
    (hal : s.terminate_called = false)
    (hno : ∀ (k : Nat) (t : function_wrapper V E), s.threads_[k]? ≠ some (.executing t)) :
    (runSched σ m s).closed_ = true
      ∧ (runSched σ m s).terminate_called = false
      ∧ (∀ (k : Nat) (t : function_wrapper V E),
          (runSched σ m s).threads_[k]? ≠ some (.executing t))
      ∧ (runSched σ m s).shared = s.shared
      ∧ (runSched σ m s).work_queue_ = s.work_queue_
      ∧ (runSched σ m s).history = s.history := by
  induction m with
  | zero => exact ⟨hcl, hal, hno, rfl, rfl, rfl⟩
  | succ m ih =>
    obtain ⟨h1, h2, h3, h4, h5, h6⟩ := ih
    obtain ⟨g1, g2, g3, g4, g5, g6⟩ := flagged_worker_step (σ m) h1 h2 h3
    exact ⟨g1, g2, g3, g4.trans h4, g5.trans h5, g6.trans h6⟩

/-- C10 at the failing input: the run of src/main.cpp, three workers and the
five submissions of `main`, on a pool built in storage whose `closed_` byte is
set.  `close` never runs, yet under every schedule and at every time nothing
has been dequeued or invoked, the five wrappers are still queued and the five
futures are still not ready, so `task_1.wait()` never returns. -/
theorem main_never_completes_with_flag_set :
    thread_pool.thread_pool true 3 (fun _ => true)
        = Constructed.pool (started true 3 : System Unit Nat)
      ∧ Event.closed ∉ (run main_submissions (started true 3 : System Unit Nat)).history
      ∧ ∀ (σ : Nat → Nat) (m : Nat),
          (runSched σ m (run main_submissions (started true 3 : System Unit Nat))).shared
              = [.not_ready, .not_ready, .not_ready, .not_ready, .not_ready]
            ∧ invokedBy (runSched σ m
                (run main_submissions (started true 3 : System Unit Nat))).history = []
            ∧ dequeuedBy (runSched σ m
                (run main_submissions (started true 3 : System Unit Nat))).history = []
            ∧ (runSched σ m
                (run main_submissions (started true 3 : System Unit Nat))).work_queue_.length
                = 5 := by
  have hno : ∀ (k : Nat) (t : function_wrapper Unit Nat),
      (run main_submissions (started true 3 : System Unit Nat)).threads_[k]?
        ≠ some (.executing t) := by
    intro k t hk
    have hs : (run main_submissions (started true 3 : System Unit Nat)).threads_
        = [.idle_poll, .idle_poll, .idle_poll] := rfl
    rw [hs] at hk
    rcases k with _ | _ | _ | k <;> simp at hk
  refine ⟨rfl, ?_, ?_⟩
  · intro hmem
    have hs : (run main_submissions (started true 3 : System Unit Nat)).history
        = [.submitted ⟨.packaged ⟨0, fun _ => background "1"⟩⟩,
           .submitted ⟨.packaged ⟨1, fun _ => background "2"⟩⟩,
           .submitted ⟨.packaged ⟨2, fun _ => background "3"⟩⟩,
           .submitted ⟨.packaged ⟨3, fun _ => background "4"⟩⟩,
           .submitted ⟨.packaged ⟨4, fun _ => background "5"⟩⟩] := rfl
    rw [hs] at hmem
    simp at hmem
  · intro σ m
    obtain ⟨_, _, _, h4, h5, h6⟩ := flagged_sched σ m
      (s := run main_submissions (started true 3 : System Unit Nat)) rfl rfl hno
    rw [h4, h5, h6]
    exact ⟨rfl, rfl, rfl, rfl⟩

/-- C1 at a concrete run: three submissions, two dequeues. -/
theorem fifo_dequeue_order_witness :
    thread_pool.thread_pool false 2 (fun _ => true)
        = Constructed.pool (started false 2 : System Nat Nat)
      ∧ (dequeuedOf (run three_then_two_polls (started false 2)).history).length = 2
      ∧ dequeuedOf (run three_then_two_polls (started false 2)).history
          ++ (run three_then_two_polls (started false 2)).work_queue_
          = submittedOf (run three_then_two_polls (started false 2)).history :=
  ⟨rfl, rfl,
    (fifo_dequeue_order false 2 (fun _ => true) (started false 2) three_then_two_polls rfl).1⟩

/-- C2 at a concrete run: one task submitted, dequeued and invoked; its future
holds the value its callable returns. -/
theorem tasks_run_exactly_once_witness :
    thread_pool.thread_pool false 2 (fun _ => true)
        = Constructed.pool (started false 2 : System Nat Nat)
      ∧ (invokedOf (run (one_held ++ [.worker 0]) (started false 2)).history).length = 1
      ∧ (run (one_held ++ [.worker 0]) (started false 2)).shared = [.value 7]
      ∧ (invokedOf (run (one_held ++ [.worker 0]) (started false 2)).history).Nodup
      ∧ ∀ (w : Nat) (t : function_wrapper Nat Nat),
          (w, t) ∈ invokedBy (run (one_held ++ [.worker 0]) (started false 2)).history →
          ∃ p : packaged_task Nat Nat, t = ⟨.packaged p⟩ ∧ p.fn () ≠ .diverges
            ∧ (run (one_held ++ [.worker 0]) (started false 2)).shared[p.state]?
                = some (resolve (p.fn ())) :=
  ⟨rfl, rfl, rfl,
    (tasks_run_exactly_once false 2 (fun _ => true) (started false 2)
      (one_held ++ [.worker 0]) rfl).1,
    (tasks_run_exactly_once false 2 (fun _ => true) (started false 2)
      (one_held ++ [.worker 0]) rfl).2.2.2.2.1⟩

/-- C4 at a concrete run: worker 0 holds the one submitted task. -/
theorem result_channel_resolved_witness :
    thread_pool.thread_pool false 1 (fun _ => true)
        = Constructed.pool (started false 1 : System Nat Nat)
      ∧ (run one_held (started false 1)).threads_[0]?
          = some (.executing ⟨.packaged ⟨0, fun _ => .returns 7⟩⟩)
      ∧ (step (.worker 0) (run one_held (started false 1))).terminate_called = false
      ∧ (step (.worker 0) (run one_held (started false 1))).shared = [.value 7] :=
  ⟨rfl, rfl,
    (result_channel_resolved false 1 (fun _ => true) (started false 1) one_held 0
      ⟨.packaged ⟨0, fun _ => .returns 7⟩⟩ rfl rfl).choose_spec.2.2.2.2.1, rfl⟩

/-- C7 at a concrete run: a task queued when `close` runs, another submitted
afterwards, and the worker polling in between. -/
theorem shutdown_abandons_queue_witness :
    thread_pool.thread_pool false 1 (fun _ => true)
        = Constructed.pool (started false 1 : System Nat Nat)
      ∧ (run [.submit (fun _ => .returns 7), .close] (started false 1 : System Nat Nat)).closed_
          = true
      ∧ ((run [.worker 0, .submit (fun _ => .returns 8), .worker 0]
            (run [.submit (fun _ => .returns 7), .close]
              (started false 1 : System Nat Nat))).work_queue_).length = 2
      ∧ dequeuedBy (run [.worker 0, .submit (fun _ => .returns 8), .worker 0]
            (run [.submit (fun _ => .returns 7), .close]
              (started false 1 : System Nat Nat))).history
          = dequeuedBy (run [.submit (fun _ => .returns 7), .close]
              (started false 1 : System Nat Nat)).history :=
  ⟨rfl, rfl, rfl,
    (shutdown_abandons_queue false 1 (fun _ => true) (started false 1)
      [.submit (fun _ => .returns 7), .close]
      [.worker 0, .submit (fun _ => .returns 8), .worker 0] rfl rfl).2.2.1⟩

/-- C8 at a concrete run: the worker holds one task and another is queued when
the pool is destroyed. -/
theorem destruction_completes_witness :
    thread_pool.thread_pool false 1 (fun _ => true)
        = Constructed.pool (started false 1 : System Nat Nat)
      ∧ (run one_held_one_queued (started false 1)).work_queue_.length = 1
      ∧ ∃ s1, thread_pool.destructor [0, 0] (run one_held_one_queued (started false 1))
            = some s1 ∧ s1.terminate_called = false := by
  have hret : ∀ (w : Nat) (t : function_wrapper Nat Nat),
      (run one_held_one_queued (started false 1)).threads_[w]? = some (.executing t) →
      t.terminates := by
    intro w t hw
    have hs : (run one_held_one_queued (started false 1)).threads_
        = [.executing ⟨.packaged ⟨0, fun _ => .returns 7⟩⟩] := rfl
    rw [hs] at hw
    cases w with
    | zero =>
      simp only [List.getElem?_cons_zero, Option.some.injEq, thread.executing.injEq] at hw
      subst hw
      simp [function_wrapper.terminates]
    | succ w => simp at hw
  have hsched : ∀ (w : Nat), w < 1 → 2 ≤ List.count w [0, 0] := by
    intro w hw
    obtain rfl : w = 0 := by omega
    decide
  obtain ⟨_, _, s2, _, _, _, _, _, _, _, _, _, hd, ht⟩ :=
    destruction_completes false 1 (fun _ => true) (started false 1) one_held_one_queued
      [0, 0] rfl hret hsched
  exact ⟨rfl, rfl, _, hd, ht⟩

/-- C9 at a concrete state: the wrapper held by worker 0 throws. -/
theorem escaped_failure_terminates_witness :
    holding_thrower.terminate_called = false
      ∧ holding_thrower.threads_[0]? = some (.executing ⟨.other (fun _ => .thrown)⟩)
      ∧ ((⟨.other (fun _ => .thrown)⟩ : function_wrapper Nat Nat).call
          holding_thrower.shared).1 = .thrown
      ∧ (step (.worker 0) holding_thrower).terminate_called = true :=
  ⟨rfl, rfl, rfl,
    (escaped_failure_terminates holding_thrower 0 ⟨.other (fun _ => .thrown)⟩ rfl rfl rfl).1⟩

theorem fair_mod_three : Fair 3 (fun k => k % 3) := by
  intro w hw k
  exact ⟨3 * k + w, by omega, by
    show (3 * k + w) % 3 = w
    omega⟩

/-- The liveness theorem at three workers with the five submissions of `main`,
scheduled round-robin, in the case where the `closed_` byte was clear. -/
theorem all_tasks_complete_witness :
    thread_pool.thread_pool false 3 (fun _ => true)
        = Constructed.pool (started false 3 : System Unit Nat)
      ∧ Fair 3 (fun k => k % 3)
      ∧ (submittedOf (run main_submissions (started false 3)).history).length = 5
      ∧ ∃ k, ∀ (m : Nat), k ≤ m →
          (∀ (t : function_wrapper Unit Nat),
              t ∈ submittedOf (run main_submissions (started false 3)).history →
              ∃ (p : packaged_task Unit Nat) (w : Nat), t = ⟨.packaged p⟩ ∧ w < 3
                ∧ p.fn () ≠ .diverges
                ∧ (runSched (fun k => k % 3) m
                    (run main_submissions (started false 3))).shared[p.state]?
                    = some (resolve (p.fn ()))
                ∧ (w, t) ∈ invokedBy (runSched (fun k => k % 3) m
                    (run main_submissions (started false 3))).history)
            ∧ (invokedOf (runSched (fun k => k % 3) m
                (run main_submissions (started false 3))).history).Nodup
            ∧ (runSched (fun k => k % 3) m
                (run main_submissions (started false 3))).work_queue_ = []
            ∧ (runSched (fun k => k % 3) m
                (run main_submissions (started false 3))).terminate_called = false := by
  refine ⟨rfl, fair_mod_three, rfl, ?_⟩
  refine all_tasks_complete 3 (fun _ => true) (started false 3) main_submissions
    (fun k => k % 3) rfl (by decide) ?_ ?_ fair_mod_three
  · intro a ha
    simp only [main_submissions, List.mem_cons, List.mem_singleton, List.not_mem_nil,
      or_false] at ha
    rcases ha with rfl | rfl | rfl | rfl | rfl <;> simp
  · intro f hf
    simp only [main_submissions, List.mem_cons, List.mem_singleton, List.not_mem_nil,
      or_false, Action.submit.injEq] at hf
    rcases hf with rfl | rfl | rfl | rfl | rfl <;> simp [background]

end tds
